import Mathlib

/-!
# A verification development for the `tiztoken` byte-level BPE tokenizer

This file gives a shallow embedding of the tokenizer sources
(`tiztoken/base.py`, `tiztoken/basic.py`) and proves properties of it.

Modelling conventions:
* Python `bytes` / lists of ids become `List Nat`.
* Python `str` values are modelled at two levels: text fed to the
  tokenizer is a `List Char` (a sequence of Unicode scalar values, which
  is exactly what a Python `str` that `encode("utf-8")` accepts is),
  while the decoder produces the list of code points of the decoded
  string (`List Nat`).
* Python `dict`s become association lists (`List (key × value)`) with
  Python's dictionary semantics: insertion keeps the original position
  of an existing key and appends new keys at the end, preserving
  insertion order, which is exactly the iteration order Python
  guarantees.
* Exceptions (`assert`, `KeyError`, `ValueError`) become `Except` /
  error-option results; a "method" that in Python mutates `self` is a
  function `Tokenizer → args → Tokenizer × Option Error` returning the
  state of `self` after the call, including after an exception escapes.
* File contents are modelled as the list of lines written/read
  (each line a `List Char`, without the trailing newline).
-/

set_option maxRecDepth 20000

/-- A pair of token ids, used as a dictionary key (`(int, int)` in the source). -/
abbrev Pair := Nat × Nat

instance exceptDecEq {ε α : Type} [DecidableEq ε] [DecidableEq α] :
    DecidableEq (Except ε α) := fun x y =>
  match x, y with
  | .ok a, .ok b =>
    if h : a = b then .isTrue (congrArg _ h) else .isFalse (fun hh => h (Except.ok.inj hh))
  | .error a, .error b =>
    if h : a = b then .isTrue (congrArg _ h) else .isFalse (fun hh => h (Except.error.inj hh))
  | .ok _, .error _ => .isFalse Except.noConfusion
  | .error _, .ok _ => .isFalse Except.noConfusion

/-! ## Python dictionaries as association lists -/

/-- Python's `d[k] = v`: replace the value at the first occurrence of the key,
keeping its position, or append the binding at the end.  This reproduces
insertion-order iteration of Python dicts. -/
def dictInsert {α β : Type} [DecidableEq α] : List (α × β) → α → β → List (α × β)
  | [], k, v => [(k, v)]
  | (k', v') :: rest, k, v =>
    if k' = k then (k', v) :: rest else (k', v') :: dictInsert rest k v

/-- Python's `d.get(k)` / `d[k]`: the value at the key, if present. -/
def dlookup {α β : Type} [DecidableEq α] : List (α × β) → α → Option β
  | [], _ => none
  | (k', v') :: rest, k => if k' = k then some v' else dlookup rest k

theorem dlookup_dictInsert_self {α β : Type} [DecidableEq α]
    (d : List (α × β)) (k : α) (v : β) : dlookup (dictInsert d k v) k = some v := by
  induction d with
  | nil => simp [dictInsert, dlookup]
  | cons e rest ih =>
    obtain ⟨k', v'⟩ := e
    by_cases h : k' = k <;> simp [dictInsert, dlookup, h, ih]

theorem dlookup_dictInsert_ne {α β : Type} [DecidableEq α]
    (d : List (α × β)) (k k' : α) (v : β) (h : k' ≠ k) :
    dlookup (dictInsert d k v) k' = dlookup d k' := by
  have h' : ¬ k = k' := fun hh => h hh.symm
  induction d with
  | nil => simp [dictInsert, dlookup, h']
  | cons e rest ih =>
    obtain ⟨k₀, v₀⟩ := e
    by_cases h₀ : k₀ = k
    · subst h₀
      simp [dictInsert, dlookup, h']
    · by_cases h₁ : k₀ = k' <;> simp [dictInsert, dlookup, h, h₀, h₁, h', ih]

theorem dlookup_eq_none_iff {α β : Type} [DecidableEq α]
    (d : List (α × β)) (k : α) : dlookup d k = none ↔ k ∉ d.map Prod.fst := by
  induction d with
  | nil => simp [dlookup]
  | cons e rest ih =>
    obtain ⟨k', v'⟩ := e
    by_cases h : k' = k
    · subst h
      simp [dlookup]
    · have h' : ¬ k = k' := fun hh => h hh.symm
      simp [dlookup, h, h', ih]

theorem dlookup_isSome_of_mem_keys {α β : Type} [DecidableEq α]
    (d : List (α × β)) (k : α) (h : k ∈ d.map Prod.fst) :
    ∃ v, dlookup d k = some v := by
  rcases hv : dlookup d k with _ | v
  · exact absurd ((dlookup_eq_none_iff d k).mp hv) (by simp [h])
  · exact ⟨v, rfl⟩

theorem dictInsert_eq_append {α β : Type} [DecidableEq α]
    (d : List (α × β)) (k : α) (v : β) (h : dlookup d k = none) :
    dictInsert d k v = d ++ [(k, v)] := by
  induction d with
  | nil => simp [dictInsert]
  | cons e rest ih =>
    obtain ⟨k', v'⟩ := e
    by_cases hk : k' = k
    · simp [dlookup, hk] at h
    · simp only [dlookup, if_neg hk] at h
      simp [dictInsert, hk, ih h]

theorem dlookup_mem {α β : Type} [DecidableEq α]
    (d : List (α × β)) (k : α) (v : β) (h : dlookup d k = some v) : (k, v) ∈ d := by
  induction d with
  | nil => simp [dlookup] at h
  | cons e rest ih =>
    obtain ⟨k', v'⟩ := e
    by_cases hk : k' = k
    · subst hk
      simp [dlookup] at h
      simp [h]
    · simp only [dlookup, if_neg hk] at h
      exact List.mem_cons_of_mem _ (ih h)

theorem dlookup_append_left {α β : Type} [DecidableEq α]
    (d d' : List (α × β)) (k : α) (v : β) (h : dlookup d k = some v) :
    dlookup (d ++ d') k = some v := by
  induction d with
  | nil => simp [dlookup] at h
  | cons e rest ih =>
    obtain ⟨k', v'⟩ := e
    by_cases hk : k' = k
    · subst hk
      simp_all [dlookup]
    · simp only [dlookup, if_neg hk] at h ⊢
      exact ih h

/-! ## `get_stats` and `merge` (tiztoken/base.py) -/

/-- The list of adjacent index pairs of a sequence: `zip(ids, ids[1:])`. -/
def adjacentPairs (ids : List Nat) : List Pair := List.zip ids ids.tail

/-- One step of `get_stats`: `counts[pair] = counts.get(pair, 0) + 1`. -/
def statsStep (cs : List (Pair × Nat)) (p : Pair) : List (Pair × Nat) :=
  dictInsert cs p ((dlookup cs p).getD 0 + 1)

/-- `get_stats(ids, counts)` from `base.py`: for every consecutive pair,
`counts[pair] = counts.get(pair, 0) + 1`. -/
def get_stats (ids : List Nat) (counts : List (Pair × Nat) := []) : List (Pair × Nat) :=
  (adjacentPairs ids).foldl statsStep counts

/-- `merge(ids, pair, idx)` from `base.py`: replace every non-overlapping
left-to-right occurrence of `pair` by the single id `idx`. -/
def merge : List Nat → Pair → Nat → List Nat
  | [], _, _ => []
  | [x], _, _ => [x]
  | x :: y :: rest, p, idx =>
    if x = p.1 ∧ y = p.2 then idx :: merge rest p idx
    else x :: merge (y :: rest) p idx

/-- The number of non-overlapping left-to-right occurrences of a pair in a
sequence (the matches `merge` consumes). -/
def countPairs : List Nat → Pair → Nat
  | [], _ => 0
  | [_], _ => 0
  | x :: y :: rest, p =>
    if x = p.1 ∧ y = p.2 then countPairs rest p + 1 else countPairs (y :: rest) p

theorem merge_length_add (ids : List Nat) (p : Pair) (idx : Nat) :
    (merge ids p idx).length + countPairs ids p = ids.length := by
  induction ids, p, idx using merge.induct with
  | case1 p idx => simp [merge, countPairs]
  | case2 x p idx => simp [merge, countPairs]
  | case3 x y rest p idx h ih =>
    rw [merge, countPairs, if_pos h, if_pos h]
    simp only [List.length_cons]
    omega
  | case4 x y rest p idx h ih =>
    rw [merge, countPairs, if_neg h, if_neg h]
    simp only [List.length_cons] at ih ⊢
    omega

theorem countPairs_le_length (ids : List Nat) (p : Pair) :
    countPairs ids p ≤ ids.length := by
  have := merge_length_add ids p 0
  omega

theorem merge_concrete_111 : merge [1, 1, 1] (1, 1) 300 = [300, 1] := by decide

theorem mem_merge {x : Nat} {ids : List Nat} {p : Pair} {c : Nat}
    (h : x ∈ merge ids p c) : x = c ∨ x ∈ ids := by
  induction ids, p, c using merge.induct with
  | case1 p idx => simp [merge] at h
  | case2 z p idx =>
    rw [merge] at h
    simp at h
    simp [h]
  | case3 z y rest p idx hm ih =>
    rw [merge, if_pos hm] at h
    rcases List.mem_cons.mp h with h | h
    · exact Or.inl h
    · rcases ih h with h | h
      · exact Or.inl h
      · exact Or.inr (by simp [h])
  | case4 z y rest p idx hm ih =>
    rw [merge, if_neg hm] at h
    rcases List.mem_cons.mp h with h | h
    · exact Or.inr (by simp [h])
    · rcases ih h with h | h
      · exact Or.inl h
      · rcases List.mem_cons.mp h with h | h
        · exact Or.inr (by simp [h])
        · exact Or.inr (by simp [h])

theorem adjacentPairs_nil : adjacentPairs [] = [] := rfl

theorem adjacentPairs_single (x : Nat) : adjacentPairs [x] = [] := rfl

theorem adjacentPairs_cons_cons (x y : Nat) (rest : List Nat) :
    adjacentPairs (x :: y :: rest) = (x, y) :: adjacentPairs (y :: rest) := rfl

theorem mem_adjacentPairs_cons {p : Pair} {l : List Nat} (z : Nat)
    (h : p ∈ adjacentPairs l) : p ∈ adjacentPairs (z :: l) := by
  cases l with
  | nil => simp [adjacentPairs] at h
  | cons w t => exact List.mem_cons_of_mem _ h

theorem mem_of_mem_adjacentPairs {a b : Nat} {ids : List Nat}
    (h : (a, b) ∈ adjacentPairs ids) : a ∈ ids ∧ b ∈ ids := by
  have h' := List.of_mem_zip h
  exact ⟨h'.1, List.mem_of_mem_tail h'.2⟩

theorem countPairs_pos_of_mem {p : Pair} {ids : List Nat}
    (h : p ∈ adjacentPairs ids) : 1 ≤ countPairs ids p := by
  induction ids, p using countPairs.induct with
  | case1 p => simp [adjacentPairs] at h
  | case2 z p => simp [adjacentPairs] at h
  | case3 x y rest p hm ih =>
    rw [countPairs, if_pos hm]
    omega
  | case4 x y rest p hm ih =>
    rw [countPairs, if_neg hm]
    rw [adjacentPairs_cons_cons] at h
    rcases List.mem_cons.mp h with h | h
    · exact absurd (by simp [h] : p.1 = x ∧ p.2 = y) (by tauto)
    · exact ih h

theorem merge_length_lt {p : Pair} {ids : List Nat} (idx : Nat)
    (h : p ∈ adjacentPairs ids) : (merge ids p idx).length < ids.length := by
  have h1 := merge_length_add ids p idx
  have h2 := countPairs_pos_of_mem h
  omega

theorem merge_cons_head (z : Nat) (l : List Nat) (p : Pair) (c : Nat) :
    (∃ t, merge (z :: l) p c = c :: t) ∨ ∃ t, merge (z :: l) p c = z :: t := by
  cases l with
  | nil => exact Or.inr ⟨[], by rw [merge]⟩
  | cons w t =>
    by_cases h : z = p.1 ∧ w = p.2
    · exact Or.inl ⟨merge t p c, by rw [merge, if_pos h]⟩
    · exact Or.inr ⟨merge (w :: t) p c, by rw [merge, if_neg h]⟩

/-- Adjacency structure after a merge: every adjacent pair of the merged
sequence either involves the freshly minted id, or was already adjacent in
the original sequence and is not the merged pair itself. -/
theorem adjacentPairs_merge {x y : Nat} {ids : List Nat} {p : Pair} {c : Nat}
    (h : (x, y) ∈ adjacentPairs (merge ids p c)) :
    x = c ∨ y = c ∨ ((x, y) ∈ adjacentPairs ids ∧ ¬(x = p.1 ∧ y = p.2)) := by
  induction ids, p, c using merge.induct with
  | case1 p idx => simp [merge, adjacentPairs] at h
  | case2 z p idx => rw [merge] at h; simp [adjacentPairs] at h
  | case3 z w rest p idx hm ih =>
    rw [merge, if_pos hm] at h
    rcases hM : merge rest p idx with _ | ⟨m, t⟩
    · rw [hM] at h
      simp [adjacentPairs] at h
    · rw [hM] at h
      rw [adjacentPairs_cons_cons] at h
      rcases List.mem_cons.mp h with h | h
      · exact Or.inl (by simp at h; exact h.1)
      · rw [← hM] at h
        rcases ih h with h | h | h
        · exact Or.inl h
        · exact Or.inr (Or.inl h)
        · exact Or.inr (Or.inr ⟨mem_adjacentPairs_cons _ (mem_adjacentPairs_cons _ h.1), h.2⟩)
  | case4 z w rest p idx hm ih =>
    rw [merge, if_neg hm] at h
    rcases merge_cons_head w rest p idx with ⟨t, ht⟩ | ⟨t, ht⟩ <;> rw [ht] at h
    · rw [adjacentPairs_cons_cons] at h
      rcases List.mem_cons.mp h with h | h
      · exact Or.inr (Or.inl (by simp at h; exact h.2))
      · rw [← ht] at h
        rcases ih h with h | h | h
        · exact Or.inl h
        · exact Or.inr (Or.inl h)
        · exact Or.inr (Or.inr ⟨mem_adjacentPairs_cons _ h.1, h.2⟩)
    · rw [adjacentPairs_cons_cons] at h
      rcases List.mem_cons.mp h with h | h
      · simp at h
        refine Or.inr (Or.inr ⟨?_, ?_⟩)
        · rw [h.1, h.2, adjacentPairs_cons_cons]
          exact List.mem_cons_self _ _
        · rw [h.1, h.2]
          exact hm
      · rw [← ht] at h
        rcases ih h with h | h | h
        · exact Or.inl h
        · exact Or.inr (Or.inl h)
        · exact Or.inr (Or.inr ⟨mem_adjacentPairs_cons _ h.1, h.2⟩)

/-! ## Key/membership lemmas for `get_stats` -/

theorem dictInsert_keys_mem {α β : Type} [DecidableEq α]
    (d : List (α × β)) (k k' : α) (v : β) :
    k' ∈ (dictInsert d k v).map Prod.fst ↔ k' = k ∨ k' ∈ d.map Prod.fst := by
  induction d with
  | nil => simp [dictInsert]
  | cons e rest ih =>
    obtain ⟨k₀, v₀⟩ := e
    by_cases h : k₀ = k
    · subst h
      by_cases h' : k' = k₀ <;> simp [dictInsert, h', or_comm]
    · simp [dictInsert, h, ih]
      tauto

theorem foldl_statsStep_keys (l : List Pair) (acc : List (Pair × Nat)) (p : Pair) :
    p ∈ (l.foldl statsStep acc).map Prod.fst ↔ p ∈ l ∨ p ∈ acc.map Prod.fst := by
  induction l generalizing acc with
  | nil => simp
  | cons q rest ih =>
    rw [List.foldl_cons, ih]
    simp only [statsStep, dictInsert_keys_mem, List.mem_cons]
    tauto

theorem get_stats_keys (ids : List Nat) (p : Pair) :
    p ∈ (get_stats ids).map Prod.fst ↔ p ∈ adjacentPairs ids := by
  rw [get_stats, foldl_statsStep_keys]
  simp

theorem get_stats_ne_nil {ids : List Nat} (h : adjacentPairs ids ≠ []) :
    get_stats ids ≠ [] := by
  rcases List.exists_mem_of_ne_nil _ h with ⟨p, hp⟩
  have := (get_stats_keys ids p).mpr hp
  intro hnil
  rw [hnil] at this
  simp at this

/-! ## Pair selection: Python `max`/`min` with a key function

`max(stats, key=stats.get)` and `min(stats, key=lambda p: merges.get(p, inf))`
iterate the dictionary keys in insertion order and keep the first element
whose key value is strictly better than the current best. -/

/-- `selectMaxGo best bc items`: scan `items`, replacing the current best key
only on a strictly larger count (Python `max` keeps the first maximum). -/
def selectMaxGo : Pair → Nat → List (Pair × Nat) → Pair
  | best, _, [] => best
  | best, bc, (p, c) :: rest =>
    if bc < c then selectMaxGo p c rest else selectMaxGo best bc rest

/-- `max(stats, key=stats.get)`; `none` when the dictionary is empty
(Python raises `ValueError` there). -/
def selectMaxPair : List (Pair × Nat) → Option Pair
  | [] => none
  | (p, c) :: rest => some (selectMaxGo p c rest)

theorem selectMaxGo_mem (best : Pair) (bc : Nat) (items : List (Pair × Nat)) :
    selectMaxGo best bc items ∈ best :: items.map Prod.fst := by
  induction items generalizing best bc with
  | nil => simp [selectMaxGo]
  | cons e rest ih =>
    obtain ⟨p, c⟩ := e
    rw [selectMaxGo]
    by_cases h : bc < c
    · rw [if_pos h]
      have := ih p c
      simp at this ⊢
      tauto
    · rw [if_neg h]
      have := ih best bc
      simp at this ⊢
      tauto

theorem selectMaxPair_mem {stats : List (Pair × Nat)} {p : Pair}
    (h : selectMaxPair stats = some p) : p ∈ stats.map Prod.fst := by
  cases stats with
  | nil => simp [selectMaxPair] at h
  | cons e rest =>
    obtain ⟨q, c⟩ := e
    rw [selectMaxPair] at h
    have := selectMaxGo_mem q c rest
    rw [Option.some_inj.mp h] at this
    simpa using this

/-- The priority of a pair during encoding: its merge id, where a missing
rule counts as `float("inf")` — worse than any real rule.  `priLT a b`
says `a` is a strictly better (smaller) priority than `b`. -/
def priLT : Option Nat → Option Nat → Bool
  | some a, some b => decide (a < b)
  | some _, none => true
  | none, _ => false

theorem priLT_irrefl (a : Option Nat) : priLT a a = false := by
  cases a <;> simp [priLT]

theorem priLT_trans_left {a b r : Option Nat}
    (h₁ : priLT a b = true) (h₂ : priLT b r = true) : priLT a r = true := by
  cases a <;> cases b <;> cases r <;> first
  | (simp_all [priLT]; omega)
  | simp_all [priLT]

theorem priLT_of_not_lt {a b r : Option Nat}
    (h₁ : priLT a b = false) (h₂ : priLT a r = true) : priLT b r = true := by
  cases a <;> cases b <;> cases r <;> first
  | (simp_all [priLT]; omega)
  | simp_all [priLT]

/-- `selectMinGo merges best items`: scan, replacing the best pair only when
the candidate has a strictly smaller merge id (Python `min` keeps the first
minimum). -/
def selectMinGo (merges : List (Pair × Nat)) : Pair → List (Pair × Nat) → Pair
  | best, [] => best
  | best, (p, _) :: rest =>
    if priLT (dlookup merges p) (dlookup merges best) then selectMinGo merges p rest
    else selectMinGo merges best rest

/-- `min(stats, key=lambda p: self.merges.get(p, float("inf")))`. -/
def selectMinPair (merges stats : List (Pair × Nat)) : Option Pair :=
  match stats with
  | [] => none
  | (p, _) :: rest => some (selectMinGo merges p rest)

theorem selectMinGo_mem (merges : List (Pair × Nat)) (best : Pair)
    (items : List (Pair × Nat)) :
    selectMinGo merges best items ∈ best :: items.map Prod.fst := by
  induction items generalizing best with
  | nil => simp [selectMinGo]
  | cons e rest ih =>
    obtain ⟨p, c⟩ := e
    rw [selectMinGo]
    by_cases h : priLT (dlookup merges p) (dlookup merges best) = true
    · rw [if_pos h]
      have := ih p
      simp at this ⊢
      tauto
    · rw [if_neg h]
      have := ih best
      simp at this ⊢
      tauto

theorem selectMinGo_minimal (merges : List (Pair × Nat)) (best : Pair)
    (items : List (Pair × Nat)) :
    ∀ q ∈ best :: items.map Prod.fst,
      priLT (dlookup merges q) (dlookup merges (selectMinGo merges best items)) = false := by
  induction items generalizing best with
  | nil =>
    intro q hq
    simp at hq
    rw [hq, selectMinGo, priLT_irrefl]
  | cons e rest ih =>
    obtain ⟨p, c⟩ := e
    intro q hq
    rw [selectMinGo]
    by_cases h : priLT (dlookup merges p) (dlookup merges best) = true
    · rw [if_pos h]
      rcases List.mem_cons.mp hq with hq | hq
      · subst hq
        by_contra hbad
        rw [Bool.not_eq_false] at hbad
        have := priLT_trans_left h hbad
        have hp := ih p p (List.mem_cons_self _ _)
        rw [this] at hp
        cases hp
      · simp only [List.map_cons, List.mem_cons] at hq
        rcases hq with hq | hq
        · subst hq
          exact ih q q (List.mem_cons_self _ _)
        · exact ih p q (List.mem_cons_of_mem _ hq)
    · rw [if_neg h]
      rw [Bool.not_eq_true] at h
      rcases List.mem_cons.mp hq with hq | hq
      · subst hq
        exact ih q q (List.mem_cons_self _ _)
      · simp only [List.map_cons, List.mem_cons] at hq
        rcases hq with hq | hq
        · subst hq
          by_contra hbad
          rw [Bool.not_eq_false] at hbad
          have := priLT_of_not_lt h hbad
          have hb := ih best best (List.mem_cons_self _ _)
          rw [this] at hb
          cases hb
        · exact ih best q (List.mem_cons_of_mem _ hq)

theorem selectMinPair_mem {merges stats : List (Pair × Nat)} {p : Pair}
    (h : selectMinPair merges stats = some p) : p ∈ stats.map Prod.fst := by
  cases stats with
  | nil => simp [selectMinPair] at h
  | cons e rest =>
    obtain ⟨q, c⟩ := e
    rw [selectMinPair] at h
    have := selectMinGo_mem merges q rest
    rw [Option.some_inj.mp h] at this
    simpa using this

theorem selectMinPair_minimal {merges stats : List (Pair × Nat)} {p : Pair}
    (h : selectMinPair merges stats = some p) :
    ∀ q ∈ stats.map Prod.fst, priLT (dlookup merges q) (dlookup merges p) = false := by
  cases stats with
  | nil => simp [selectMinPair] at h
  | cons e rest =>
    obtain ⟨q₀, c⟩ := e
    rw [selectMinPair] at h
    intro q hq
    rw [← Option.some_inj.mp h]
    apply selectMinGo_minimal
    simpa using hq

/-! ## UTF-8 (`text.encode("utf-8")` and `bytes.decode("utf-8", errors="replace")`)

The encoder maps each Unicode scalar value to its UTF-8 byte sequence.
The decoder is a strict UTF-8 decoder with Python's `errors="replace"`
policy: every maximal subpart of an ill-formed sequence becomes one
U+FFFD replacement character instead of raising. -/

/-- UTF-8 encoding of one Unicode scalar value. -/
def utf8EncodeCp (c : Nat) : List Nat :=
  if c < 0x80 then [c]
  else if c < 0x800 then [0xC0 + c / 64, 0x80 + c % 64]
  else if c < 0x10000 then [0xE0 + c / 4096, 0x80 + c / 64 % 64, 0x80 + c % 64]
  else [0xF0 + c / 262144, 0x80 + c / 4096 % 64, 0x80 + c / 64 % 64, 0x80 + c % 64]

/-- `text.encode("utf-8")`: the byte sequence of a string.  A Lean `Char` is
a Unicode scalar value, exactly the values Python's UTF-8 encoder accepts. -/
def utf8EncodeStr (s : List Char) : List Nat :=
  (s.map (fun ch => utf8EncodeCp ch.toNat)).flatten

/-- A UTF-8 continuation byte. -/
def isCont (b : Nat) : Prop := 0x80 ≤ b ∧ b < 0xC0

instance (b : Nat) : Decidable (isCont b) := by unfold isCont; infer_instance

/-- Valid second byte after a three-byte lead (excludes overlong forms for
`E0` and surrogates for `ED`). -/
def cont2ok (b b1 : Nat) : Prop :=
  if b = 0xE0 then 0xA0 ≤ b1 ∧ b1 < 0xC0
  else if b = 0xED then 0x80 ≤ b1 ∧ b1 < 0xA0
  else isCont b1

instance (b b1 : Nat) : Decidable (cont2ok b b1) := by unfold cont2ok; infer_instance

/-- Valid second byte after a four-byte lead (excludes overlong forms for
`F0` and values above U+10FFFF for `F4`). -/
def cont4ok (b b1 : Nat) : Prop :=
  if b = 0xF0 then 0x90 ≤ b1 ∧ b1 < 0xC0
  else if b = 0xF4 then 0x80 ≤ b1 ∧ b1 < 0x90
  else isCont b1

instance (b b1 : Nat) : Decidable (cont4ok b b1) := by unfold cont4ok; infer_instance

/-- UTF-8 decoding with `errors="replace"`: returns the code points of the
decoded string; ill-formed subsequences become U+FFFD (0xFFFD). -/
def utf8Decode : List Nat → List Nat
  | [] => []
  | b :: rest =>
    if b < 0x80 then b :: utf8Decode rest
    else if b < 0xC2 then 0xFFFD :: utf8Decode rest
    else if b < 0xE0 then
      match rest with
      | [] => [0xFFFD]
      | b1 :: rest1 =>
        if isCont b1 then ((b - 0xC0) * 64 + (b1 - 0x80)) :: utf8Decode rest1
        else 0xFFFD :: utf8Decode (b1 :: rest1)
    else if b < 0xF0 then
      match rest with
      | [] => [0xFFFD]
      | b1 :: rest1 =>
        if cont2ok b b1 then
          match rest1 with
          | [] => [0xFFFD]
          | b2 :: rest2 =>
            if isCont b2 then
              ((b - 0xE0) * 4096 + (b1 - 0x80) * 64 + (b2 - 0x80)) :: utf8Decode rest2
            else 0xFFFD :: utf8Decode (b2 :: rest2)
        else 0xFFFD :: utf8Decode (b1 :: rest1)
    else if b < 0xF5 then
      match rest with
      | [] => [0xFFFD]
      | b1 :: rest1 =>
        if cont4ok b b1 then
          match rest1 with
          | [] => [0xFFFD]
          | b2 :: rest2 =>
            if isCont b2 then
              match rest2 with
              | [] => [0xFFFD]
              | b3 :: rest3 =>
                if isCont b3 then
                  ((b - 0xF0) * 262144 + (b1 - 0x80) * 4096 + (b2 - 0x80) * 64 + (b3 - 0x80))
                    :: utf8Decode rest3
                else 0xFFFD :: utf8Decode (b3 :: rest3)
            else 0xFFFD :: utf8Decode (b2 :: rest2)
        else 0xFFFD :: utf8Decode (b1 :: rest1)
    else 0xFFFD :: utf8Decode rest

/-- A Unicode scalar value: what a Lean `Char` carries and what Python's
UTF-8 encoder accepts. -/
def isScalar (c : Nat) : Prop := c < 0xD800 ∨ (0xE000 ≤ c ∧ c < 0x110000)

theorem char_isScalar (c : Char) : isScalar c.toNat := by
  rcases c.valid with h | h
  · exact Or.inl h
  · exact Or.inr h

theorem utf8EncodeCp_lt_256 (c : Nat) (h : isScalar c) :
    ∀ b ∈ utf8EncodeCp c, b < 256 := by
  intro b hb
  unfold utf8EncodeCp at hb
  rcases h with h | h
  all_goals (
    split at hb
    · simp at hb; omega
    · split at hb
      · simp at hb
        rcases hb with hb | hb <;> omega
      · split at hb
        · simp at hb
          rcases hb with hb | hb | hb <;> omega
        · simp at hb
          rcases hb with hb | hb | hb | hb <;> omega)

theorem utf8EncodeStr_lt_256 (s : List Char) : ∀ b ∈ utf8EncodeStr s, b < 256 := by
  intro b hb
  unfold utf8EncodeStr at hb
  rw [List.mem_flatten] at hb
  rcases hb with ⟨l, hl, hb⟩
  rw [List.mem_map] at hl
  rcases hl with ⟨ch, _, rfl⟩
  exact utf8EncodeCp_lt_256 ch.toNat (char_isScalar ch) b hb

/-- Decoding a valid scalar's UTF-8 bytes at the head of a byte stream
yields the scalar and continues with the remainder. -/
theorem utf8Decode_encodeCp_cons (c : Nat) (h : isScalar c) (bs : List Nat) :
    utf8Decode (utf8EncodeCp c ++ bs) = c :: utf8Decode bs := by
  by_cases h1 : c < 0x80
  · rw [utf8EncodeCp, if_pos h1]
    rw [List.cons_append, List.nil_append, utf8Decode.eq_def]
    simp only [if_pos h1]
  · by_cases h2 : c < 0x800
    · rw [utf8EncodeCp, if_neg h1, if_pos h2]
      rw [List.cons_append, List.cons_append, List.nil_append, utf8Decode.eq_def]
      simp only [if_neg (show ¬ 0xC0 + c / 64 < 0x80 by omega),
        if_neg (show ¬ 0xC0 + c / 64 < 0xC2 by omega),
        if_pos (show 0xC0 + c / 64 < 0xE0 by omega),
        if_pos (show isCont (0x80 + c % 64) by unfold isCont; omega)]
      congr 1
      omega
    · by_cases h3 : c < 0x10000
      · rw [utf8EncodeCp, if_neg h1, if_neg h2, if_pos h3]
        have hnotsur : c < 0xD800 ∨ 0xE000 ≤ c := by
          rcases h with h | h
          · exact Or.inl h
          · exact Or.inr h.1
        have hc2 : cont2ok (0xE0 + c / 4096) (0x80 + c / 64 % 64) := by
          unfold cont2ok isCont
          by_cases he0 : 0xE0 + c / 4096 = 0xE0
          · rw [if_pos he0]
            omega
          · rw [if_neg he0]
            by_cases hed : 0xE0 + c / 4096 = 0xED
            · rw [if_pos hed]
              omega
            · rw [if_neg hed]
              omega
        rw [List.cons_append, List.cons_append, List.cons_append, List.nil_append,
          utf8Decode.eq_def]
        simp only [if_neg (show ¬ 0xE0 + c / 4096 < 0x80 by omega),
          if_neg (show ¬ 0xE0 + c / 4096 < 0xC2 by omega),
          if_neg (show ¬ 0xE0 + c / 4096 < 0xE0 by omega),
          if_pos (show 0xE0 + c / 4096 < 0xF0 by omega),
          if_pos hc2,
          if_pos (show isCont (0x80 + c % 64) by unfold isCont; omega)]
        congr 1
        omega
      · have h4 : 0x10000 ≤ c ∧ c < 0x110000 := by
          rcases h with h | h
          · omega
          · omega
        rw [utf8EncodeCp, if_neg h1, if_neg h2, if_neg h3]
        have hc4 : cont4ok (0xF0 + c / 262144) (0x80 + c / 4096 % 64) := by
          unfold cont4ok isCont
          by_cases hf0 : 0xF0 + c / 262144 = 0xF0
          · rw [if_pos hf0]
            omega
          · rw [if_neg hf0]
            by_cases hf4 : 0xF0 + c / 262144 = 0xF4
            · rw [if_pos hf4]
              omega
            · rw [if_neg hf4]
              omega
        rw [List.cons_append, List.cons_append, List.cons_append, List.cons_append,
          List.nil_append, utf8Decode.eq_def]
        simp only [if_neg (show ¬ 0xF0 + c / 262144 < 0x80 by omega),
          if_neg (show ¬ 0xF0 + c / 262144 < 0xC2 by omega),
          if_neg (show ¬ 0xF0 + c / 262144 < 0xE0 by omega),
          if_neg (show ¬ 0xF0 + c / 262144 < 0xF0 by omega),
          if_pos (show 0xF0 + c / 262144 < 0xF5 by omega),
          if_pos hc4,
          if_pos (show isCont (0x80 + c / 64 % 64) by unfold isCont; omega),
          if_pos (show isCont (0x80 + c % 64) by unfold isCont; omega)]
        congr 1
        omega

/-- Decoding the UTF-8 encoding of any string recovers its code points. -/
theorem utf8Decode_encodeStr (s : List Char) :
    utf8Decode (utf8EncodeStr s) = s.map Char.toNat := by
  induction s with
  | nil => rfl
  | cons c rest ih =>
    rw [utf8EncodeStr, List.map_cons, List.flatten_cons]
    rw [show (rest.map (fun ch => utf8EncodeCp ch.toNat)).flatten = utf8EncodeStr rest from rfl]
    rw [utf8Decode_encodeCp_cons c.toNat (char_isScalar c) (utf8EncodeStr rest), ih]
    rfl

/-! ## The tokenizer state (`Tokenizer.__init__`, `_build_vocab`) -/

/-- `TOKENS = 256` in `base.py`: the number of byte-level base tokens. -/
def TOKENS : Nat := 256

/-- `VERSION = "tiztoken v1"` in `base.py`. -/
def VERSION : List Char := "tiztoken v1".data

/-- The state of a `Tokenizer` object (`base.py`): merge rules
(`(int, int) -> int`), the pattern string, special tokens
(`str -> int`), and the derived vocabulary (`int -> bytes`). -/
structure Tokenizer where
  merges : List (Pair × Nat)
  pattern : List Char
  special_tokens : List (List Char × Nat)
  vocab : List (Nat × List Nat)
deriving DecidableEq, Repr

/-- The 256 singleton-byte entries `{idx: bytes([idx]) for idx in range(TOKENS)}`. -/
def baseVocab : List (Nat × List Nat) := (List.range TOKENS).map (fun i => (i, [i]))

/-- The merge-processing loop of `_build_vocab`:
`vocab[idx] = vocab[p0] + vocab[p1]` in rule order.  A missing `p0`/`p1`
is Python's `KeyError`, modelled as `none`. -/
def build_vocab_merges : List (Nat × List Nat) → List (Pair × Nat) → Option (List (Nat × List Nat))
  | vocab, [] => some vocab
  | vocab, ((p0, p1), idx) :: rest =>
    match dlookup vocab p0, dlookup vocab p1 with
    | some a, some b => build_vocab_merges (dictInsert vocab idx (a ++ b)) rest
    | _, _ => none

/-- `_build_vocab` from `base.py`: byte entries, then merge-derived entries
in rule order, then special tokens (`vocab[idx] = special_token.encode("utf-8")`). -/
def build_vocab (merges : List (Pair × Nat)) (specials : List (List Char × Nat)) :
    Option (List (Nat × List Nat)) :=
  match build_vocab_merges baseVocab merges with
  | some v => some (specials.foldl (fun v e => dictInsert v e.2 (utf8EncodeStr e.1)) v)
  | none => none

/-- `Tokenizer.__init__`: no merges, empty pattern, no special tokens, and
`vocab = _build_vocab()` (which on the empty state is just the 256 byte
entries — see `init_vocab_is_build_vocab`). -/
def Tokenizer.init : Tokenizer :=
  { merges := [], pattern := [], special_tokens := [], vocab := baseVocab }

theorem init_vocab_is_build_vocab : build_vocab [] [] = some Tokenizer.init.vocab := rfl

/-! ## `BasicTokenizer.train` (basic.py) -/

/-- Error conditions of `BasicTokenizer.train`: the `assert vocab_size >= 256`
(an InvalidArgument condition), Python's `ValueError` from `max()` over the
empty stats dictionary, and a (dead in practice) `KeyError` from the vocab
lookups in the loop body. -/
inductive TrainError
  | invalidVocabSize
  | emptyStats
  | keyError
deriving DecidableEq, Repr

/-- The `for i in range(num_merges)` loop of `BasicTokenizer.train`.
Arguments: current ids, the accumulated `merges` and `vocab` locals, the
loop counter `i`, and the number of remaining iterations.
`max(stats, key=stats.get)` over an empty dictionary raises `ValueError`
(`.emptyStats`): the loop has no early-exit path. -/
def trainLoop : List Nat → List (Pair × Nat) → List (Nat × List Nat) → Nat → Nat →
    Except TrainError (List (Pair × Nat) × List (Nat × List Nat))
  | _, merges, vocab, _, 0 => .ok (merges, vocab)
  | ids, merges, vocab, i, n + 1 =>
    match selectMaxPair (get_stats ids) with
    | none => .error .emptyStats
    | some pair =>
      match dlookup vocab pair.1 with
      | none => .error .keyError
      | some va =>
        match dlookup vocab pair.2 with
        | none => .error .keyError
        | some vb =>
          trainLoop (merge ids pair (TOKENS + i)) (dictInsert merges pair (TOKENS + i))
            (dictInsert vocab (TOKENS + i) (va ++ vb)) (i + 1) n

/-- `BasicTokenizer.train(text, vocab_size)`: returns the state of `self`
after the call together with the exception, if one escaped.  The loop works
on locals; `self.merges` / `self.vocab` are assigned only after the loop
completes (`pattern` and `special_tokens` are never touched). -/
def BasicTokenizer.train (self : Tokenizer) (text : List Char) (vocab_size : Nat) :
    Tokenizer × Option TrainError :=
  if vocab_size < TOKENS then (self, some .invalidVocabSize)
  else
    match trainLoop (utf8EncodeStr text) [] baseVocab 0 (vocab_size - TOKENS) with
    | .ok (merges, vocab) => ({ self with merges := merges, vocab := vocab }, none)
    | .error e => (self, some e)

/-! ## `BasicTokenizer.encode` / `BasicTokenizer.decode` (basic.py) -/

/-- `b"".join(self.vocab[idx] for idx in ids)`: `none` is Python's
`KeyError` for an id absent from the vocabulary. -/
def bytesOf (vocab : List (Nat × List Nat)) : List Nat → Option (List Nat)
  | [] => some []
  | i :: rest =>
    match dlookup vocab i, bytesOf vocab rest with
    | some b, some bs => some (b ++ bs)
    | _, _ => none

/-- The error condition of `BasicTokenizer.decode`: a `KeyError` on an
unknown id (the spec's InvalidArgument condition). -/
inductive DecodeError
  | unknownId
deriving DecidableEq, Repr

/-- `BasicTokenizer.decode(ids)`: join the vocabulary entries and decode
as UTF-8 with `errors="replace"`.  The result is the code-point sequence
of the returned string. -/
def BasicTokenizer.decode (self : Tokenizer) (ids : List Nat) :
    Except DecodeError (List Nat) :=
  match bytesOf self.vocab ids with
  | some bs => .ok (utf8Decode bs)
  | none => .error .unknownId

/-- The `while len(ids) >= 2` loop of `BasicTokenizer.encode`, with fuel.
Each successful merge strictly shortens `ids`, so running the loop with
fuel equal to the initial length is exactly the unbounded `while` loop
(when the fuel hits 0 the sequence has length 0 and the `while` condition
is false anyway).  The `selectMinPair = none` branch is unreachable for
`len(ids) >= 2`, matching Python where `min` over the non-empty stats
dictionary always yields a pair. -/
def encodeLoop : Nat → List (Pair × Nat) → List Nat → List Nat
  | 0, _, ids => ids
  | fuel + 1, merges, ids =>
    if 2 ≤ ids.length then
      match selectMinPair merges (get_stats ids) with
      | none => ids
      | some pair =>
        match dlookup merges pair with
        | none => ids
        | some idx => encodeLoop fuel merges (merge ids pair idx)
    else ids

/-- `BasicTokenizer.encode(text)`: convert to raw bytes, then repeatedly
merge the present pair with the lowest merge id until none applies. -/
def BasicTokenizer.encode (self : Tokenizer) (text : List Char) : List Nat :=
  encodeLoop (utf8EncodeStr text).length self.merges (utf8EncodeStr text)

/-! ## Model-file persistence (`Tokenizer.save` / `Tokenizer.load`, base.py)

The model file is modelled as its list of lines (each a `List Char`,
without the trailing newline).  `save` also writes a human-readable
`.vocab` file, which `load` never reads (its rendering is explicitly
lossy), so only the `.model` artifact is modelled here. -/

/-- Base-10 digits of `n`, least significant first, with fuel (`n` itself
is enough fuel since the value shrinks by a factor of 10 each step).
Agrees with `Nat.digits 10` — see `digitsF_eq_digits`. -/
def digitsF : Nat → Nat → List Nat
  | 0, _ => []
  | fuel + 1, n => if n = 0 then [] else n % 10 :: digitsF fuel (n / 10)

/-- Decimal rendering of a natural number (`f"{n}"`). -/
def natToChars (n : Nat) : List Char :=
  if n = 0 then ['0'] else ((digitsF n n).map (fun d => Char.ofNat (48 + d))).reverse

/-- Python `int(s)` restricted to the canonical unsigned-decimal strings the
tokenizer itself writes; any other line is a `ValueError` (`none`).
(Python's `int` also accepts signs and underscores, which never occur in a
saved model and whose ids would be meaningless; they are not modelled.) -/
def parseNatChars (l : List Char) : Option Nat :=
  if l ≠ [] ∧ l.all (fun c => c.isDigit) then
    some (l.foldl (fun acc c => acc * 10 + (c.toNat - 48)) 0)
  else none

/-- Python `str.strip()`: remove leading and trailing whitespace. -/
def pyStrip (l : List Char) : List Char :=
  ((l.dropWhile Char.isWhitespace).reverse.dropWhile Char.isWhitespace).reverse

/-- Worker for `str.split()`: accumulates the current word (reversed). -/
def pySplitGo : List Char → List Char → List (List Char)
  | cur, [] => if cur = [] then [] else [cur.reverse]
  | cur, c :: rest =>
    if c.isWhitespace then
      if cur = [] then pySplitGo [] rest else cur.reverse :: pySplitGo [] rest
    else pySplitGo (c :: cur) rest

/-- Python `str.split()` with no separator: split on whitespace runs,
discarding empty fields. -/
def pySplit (l : List Char) : List (List Char) := pySplitGo [] l

/-- The failure conditions of `Tokenizer.load`: the
`assert model_file.endswith(".model")`, the version-tag assertion, any
`ValueError` while parsing counts/ids/fields, and a `KeyError` while
rebuilding the vocabulary. -/
inductive LoadError
  | badSuffix
  | badVersion
  | parseError
  | keyError
deriving DecidableEq, Repr

/-- The special-token reading loop of `load`:
`special_token, special_token_idx = f.readline().strip().split()` then
`special_tokens[special_token] = int(special_token_idx)`. -/
def parseSpecials (acc : List (List Char × Nat)) :
    List (List Char) → Except LoadError (List (List Char × Nat))
  | [] => .ok acc
  | line :: rest =>
    match pySplit (pyStrip line) with
    | [tok, idxStr] =>
      match parseNatChars idxStr with
      | some i => parseSpecials (dictInsert acc tok i) rest
      | none => .error .parseError
    | _ => .error .parseError

/-- The merge reading loop of `load`: `idx1, idx2 = map(int, line.split())`,
`merges[(idx1, idx2)] = idx`, `idx += 1` — ids are reassigned purely
positionally starting at 256. -/
def parseMerges (idx : Nat) (acc : List (Pair × Nat)) :
    List (List Char) → Except LoadError (List (Pair × Nat))
  | [] => .ok acc
  | line :: rest =>
    match pySplit line with
    | [s1, s2] =>
      match parseNatChars s1 with
      | none => .error .parseError
      | some a =>
        match parseNatChars s2 with
        | none => .error .parseError
        | some b => parseMerges (idx + 1) (dictInsert acc (a, b) idx) rest
    | _ => .error .parseError

/-- The `.model` artifact written by `Tokenizer.save(file_name)` (the
`.vocab` artifact is human-readable only and never loaded): the version
tag, the pattern, the special-token count, one line per special token,
then one line per merge rule in dictionary (= discovery) order. -/
def Tokenizer.saveModelLines (self : Tokenizer) : List (List Char) :=
  VERSION ::
    self.pattern ::
      natToChars self.special_tokens.length ::
        (self.special_tokens.map (fun e => e.1 ++ ' ' :: natToChars e.2) ++
          self.merges.map (fun e => natToChars e.1.1 ++ ' ' :: natToChars e.1.2))

/-- `Tokenizer.load(model_file)` on a file with the given lines (a
`readline` past the end of the file returns `""`, hence the `getD` with
default `[]`).  Mirrors the source's effect order: the suffix and version
asserts fire before anything is written; `self.pattern` is assigned as
soon as its line is read; `merges`/`special_tokens` are assigned before
`_build_vocab` runs, so a `KeyError` there leaves the old `vocab`. -/
def Tokenizer.load (self : Tokenizer) (model_file : List Char) (lines : List (List Char)) :
    Tokenizer × Option LoadError :=
  if ¬ (".model".data.isSuffixOf model_file) then (self, some .badSuffix)
  else if pyStrip (lines.getD 0 []) ≠ VERSION then (self, some .badVersion)
  else
    let self1 := { self with pattern := pyStrip (lines.getD 1 []) }
    match parseNatChars (pyStrip (lines.getD 2 [])) with
    | none => (self1, some .parseError)
    | some n =>
      match parseSpecials [] ((List.range n).map (fun i => lines.getD (3 + i) [])) with
      | .error e => (self1, some e)
      | .ok specials =>
        match parseMerges TOKENS [] (lines.drop (3 + n)) with
        | .error e => (self1, some e)
        | .ok merges =>
          match build_vocab merges specials with
          | none =>
            ({ self1 with merges := merges, special_tokens := specials }, some .keyError)
          | some vocab =>
            ({ self1 with merges := merges, special_tokens := specials, vocab := vocab },
              none)

/-! ## Lemmas: decimal rendering and parsing -/

theorem digitsF_eq_digits : ∀ fuel n, n ≤ fuel → digitsF fuel n = Nat.digits 10 n := by
  intro fuel
  induction fuel with
  | zero =>
    intro n hn
    interval_cases n
    simp [digitsF, Nat.digits_zero]
  | succ fuel ih =>
    intro n hn
    by_cases h0 : n = 0
    · subst h0
      simp [digitsF, Nat.digits_zero]
    · rw [digitsF, if_neg h0]
      have hdiv : n / 10 ≤ fuel := by
        have := Nat.div_lt_self (Nat.pos_of_ne_zero h0) (by norm_num : 1 < 10)
        omega
      rw [ih _ hdiv]
      exact (Nat.digits_def' (by norm_num : 1 < 10) (Nat.pos_of_ne_zero h0)).symm

theorem natToChars_eq_digits (n : Nat) (h : n ≠ 0) :
    natToChars n = ((Nat.digits 10 n).map (fun d => Char.ofNat (48 + d))).reverse := by
  rw [natToChars, if_neg h, digitsF_eq_digits n n le_rfl]

theorem digitChar_isDigit {d : Nat} (h : d < 10) :
    (Char.ofNat (48 + d)).isDigit = true := by
  interval_cases d <;> decide

theorem digitChar_toNat {d : Nat} (h : d < 10) : (Char.ofNat (48 + d)).toNat = 48 + d := by
  interval_cases d <;> decide

theorem digitChar_not_ws {d : Nat} (h : d < 10) :
    (Char.ofNat (48 + d)).isWhitespace = false := by
  interval_cases d <;> decide

theorem natToChars_ne_nil (n : Nat) : natToChars n ≠ [] := by
  by_cases h : n = 0
  · subst h
    decide
  · rw [natToChars_eq_digits n h]
    simp [Nat.digits_ne_nil_iff_ne_zero.mpr h]

theorem natToChars_all_digit (n : Nat) : ∀ c ∈ natToChars n, c.isDigit = true := by
  by_cases h : n = 0
  · subst h
    decide
  · rw [natToChars_eq_digits n h]
    intro c hc
    rw [List.mem_reverse, List.mem_map] at hc
    rcases hc with ⟨d, hd, rfl⟩
    exact digitChar_isDigit (Nat.digits_lt_base (by norm_num) hd)

theorem natToChars_not_ws (n : Nat) : ∀ c ∈ natToChars n, c.isWhitespace = false := by
  by_cases h : n = 0
  · subst h
    decide
  · rw [natToChars_eq_digits n h]
    intro c hc
    rw [List.mem_reverse, List.mem_map] at hc
    rcases hc with ⟨d, hd, rfl⟩
    exact digitChar_not_ws (Nat.digits_lt_base (by norm_num) hd)

theorem foldr_digit_chars (L : List Nat) (h : ∀ d ∈ L, d < 10) :
    (L.map (fun d => Char.ofNat (48 + d))).foldr (fun c acc => acc * 10 + (c.toNat - 48)) 0 =
      Nat.ofDigits 10 L := by
  induction L with
  | nil => rfl
  | cons d rest ih =>
    rw [List.map_cons, List.foldr_cons, ih (fun x hx => h x (List.mem_cons_of_mem _ hx))]
    rw [digitChar_toNat (h d (List.mem_cons_self _ _)), Nat.ofDigits_cons]
    omega

theorem parseNatChars_natToChars (n : Nat) : parseNatChars (natToChars n) = some n := by
  by_cases h : n = 0
  · subst h
    decide
  · rw [parseNatChars, if_pos ⟨natToChars_ne_nil n, List.all_eq_true.mpr
      (fun c hc => natToChars_all_digit n c hc)⟩]
    rw [natToChars_eq_digits n h, List.foldl_reverse]
    have : ∀ L : List Char, L.foldr (fun x acc => acc * 10 + (x.toNat - 48)) 0 =
        L.foldr (fun c acc => acc * 10 + (c.toNat - 48)) 0 := fun L => rfl
    rw [foldr_digit_chars _ (fun d hd => Nat.digits_lt_base (by norm_num) hd)]
    rw [Nat.ofDigits_digits]

/-! ## Lemmas: `pySplit` and `pyStrip` -/

theorem pySplitGo_nonws (w : List Char) :
    ∀ cur r, (∀ c ∈ w, c.isWhitespace = false) →
      pySplitGo cur (w ++ r) = pySplitGo (w.reverse ++ cur) r := by
  induction w with
  | nil => intro cur r _; rfl
  | cons c rest ih =>
    intro cur r hw
    rw [List.cons_append, pySplitGo, hw c (List.mem_cons_self _ _)]
    simp only [Bool.false_eq_true, if_false]
    rw [ih (c :: cur) r (fun x hx => hw x (List.mem_cons_of_mem _ hx))]
    rw [List.reverse_cons, List.append_assoc]
    rfl

theorem pySplit_single_word (w : List Char) (hne : w ≠ [])
    (hw : ∀ c ∈ w, c.isWhitespace = false) : pySplit w = [w] := by
  rw [pySplit, show w = w ++ [] by simp, pySplitGo_nonws w [] [] hw]
  rw [pySplitGo]
  simp [hne]

theorem pySplit_two_words (d₁ d₂ : List Char) (h₁ : d₁ ≠ []) (h₂ : d₂ ≠ [])
    (hw₁ : ∀ c ∈ d₁, c.isWhitespace = false) (hw₂ : ∀ c ∈ d₂, c.isWhitespace = false) :
    pySplit (d₁ ++ ' ' :: d₂) = [d₁, d₂] := by
  rw [pySplit, pySplitGo_nonws d₁ [] (' ' :: d₂) hw₁, List.append_nil, pySplitGo]
  rw [show (' '.isWhitespace) = true from rfl]
  simp only [if_true]
  rw [if_neg (by simp [h₁]), List.reverse_reverse]
  rw [show pySplitGo [] d₂ = pySplit d₂ from rfl, pySplit_single_word d₂ h₂ hw₂]

/-! ## Lemmas: `bytesOf` and the encode loop -/

/-- The vocabulary has the 256 singleton-byte entries. -/
def ByteEntries (vocab : List (Nat × List Nat)) : Prop :=
  ∀ b, b < 256 → dlookup vocab b = some [b]

/-- Every merge rule's entry is the concatenation of its parts' entries:
the vocabulary is a homomorphic image of the merge rules. -/
def VocabHom (merges : List (Pair × Nat)) (vocab : List (Nat × List Nat)) : Prop :=
  ∀ p idx, dlookup merges p = some idx →
    ∃ va vb, dlookup vocab p.1 = some va ∧ dlookup vocab p.2 = some vb ∧
      dlookup vocab idx = some (va ++ vb)

theorem bytesOf_all_bytes {vocab : List (Nat × List Nat)} (hB : ByteEntries vocab)
    (bs : List Nat) (h : ∀ b ∈ bs, b < 256) : bytesOf vocab bs = some bs := by
  induction bs with
  | nil => rfl
  | cons b rest ih =>
    rw [bytesOf, hB b (h b (List.mem_cons_self _ _)),
      ih (fun x hx => h x (List.mem_cons_of_mem _ hx))]
    rfl

theorem bytesOf_merge (vocab : List (Nat × List Nat)) :
    ∀ (ids : List Nat) (p : Pair) (c : Nat),
      (∃ va vb, dlookup vocab p.1 = some va ∧ dlookup vocab p.2 = some vb ∧
        dlookup vocab c = some (va ++ vb)) →
      ∀ B, bytesOf vocab ids = some B → bytesOf vocab (merge ids p c) = some B := by
  intro ids p c
  induction ids, p, c using merge.induct with
  | case1 p c => intro _ B hB; rw [merge]; exact hB
  | case2 x p c => intro _ B hB; rw [merge]; exact hB
  | case3 x y rest p c hm ih =>
    intro hpc B hB
    rcases hpc with ⟨va, vb, ha, hb, hc⟩
    rw [merge, if_pos hm]
    rw [bytesOf] at hB
    rcases hx : dlookup vocab x with _ | bx
    · rw [hx] at hB; simp at hB
    · rw [hx] at hB
      rcases hyr : bytesOf vocab (y :: rest) with _ | B1
      · rw [hyr] at hB; simp at hB
      · rw [hyr] at hB
        simp only [Option.some_inj] at hB
        rw [bytesOf] at hyr
        rcases hy : dlookup vocab y with _ | by'
        · rw [hy] at hyr; simp at hyr
        · rw [hy] at hyr
          rcases hr : bytesOf vocab rest with _ | B2
          · rw [hr] at hyr; simp at hyr
          · rw [hr] at hyr
            simp only [Option.some_inj] at hyr
            have hbx : bx = va := by
              rw [hm.1] at hx
              rw [hx] at ha
              exact Option.some_inj.mp ha
            have hby : by' = vb := by
              rw [hm.2] at hy
              rw [hy] at hb
              exact Option.some_inj.mp hb
            rw [bytesOf, hc, ih ⟨va, vb, ha, hb, hc⟩ B2 hr]
            rw [← hB, ← hyr, hbx, hby]
            simp [List.append_assoc]
  | case4 x y rest p c hm ih =>
    intro hpc B hB
    rw [merge, if_neg hm]
    rw [bytesOf] at hB
    rcases hx : dlookup vocab x with _ | bx
    · rw [hx] at hB; simp at hB
    · rw [hx] at hB
      rcases hyr : bytesOf vocab (y :: rest) with _ | B1
      · rw [hyr] at hB; simp at hyr hB
      · rw [hyr] at hB
        simp only [Option.some_inj] at hB
        rw [bytesOf, hx, ih hpc B1 hyr]
        simp [hB]

theorem adjacentPairs_eq_nil {ids : List Nat} (h : ids.length < 2) :
    adjacentPairs ids = [] := by
  match ids, h with
  | [], _ => rfl
  | [x], _ => rfl

theorem adjacentPairs_ne_nil {ids : List Nat} (h : 2 ≤ ids.length) :
    adjacentPairs ids ≠ [] := by
  match ids, h with
  | x :: y :: rest, _ => simp [adjacentPairs_cons_cons]

theorem selectMinPair_none_iff (merges stats : List (Pair × Nat)) :
    selectMinPair merges stats = none ↔ stats = [] := by
  cases stats with
  | nil => simp [selectMinPair]
  | cons e rest => obtain ⟨p, c⟩ := e; simp [selectMinPair]

/-- The output of the encode loop is a fixed point: no adjacent pair of the
result has a merge rule. -/
theorem encodeLoop_fixed (merges : List (Pair × Nat)) :
    ∀ (fuel : Nat) (ids : List Nat), ids.length ≤ fuel →
      ∀ q ∈ adjacentPairs (encodeLoop fuel merges ids), dlookup merges q = none := by
  intro fuel
  induction fuel with
  | zero =>
    intro ids hlen q hq
    rw [encodeLoop] at hq
    rw [adjacentPairs_eq_nil (by omega)] at hq
    cases hq
  | succ fuel ih =>
    intro ids hlen q hq
    rw [encodeLoop] at hq
    by_cases h2 : 2 ≤ ids.length
    · rw [if_pos h2] at hq
      rcases hsel : selectMinPair merges (get_stats ids) with _ | pair
      · exact absurd ((selectMinPair_none_iff _ _).mp hsel)
          (get_stats_ne_nil (adjacentPairs_ne_nil h2))
      · rw [hsel] at hq
        simp only [] at hq
        rcases hrule : dlookup merges pair with _ | idx
        · rw [hrule] at hq
          have hmin := selectMinPair_minimal hsel q
          rw [hrule] at hmin
          have hqkeys : q ∈ (get_stats ids).map Prod.fst :=
            (get_stats_keys ids q).mpr hq
          have := hmin hqkeys
          rcases hget : dlookup merges q with _ | a
          · rfl
          · rw [hget] at this
            simp [priLT] at this
        · rw [hrule] at hq
          have hpadj : pair ∈ adjacentPairs ids :=
            (get_stats_keys ids pair).mp (selectMinPair_mem hsel)
          have hlt := merge_length_lt idx hpadj
          exact ih (merge ids pair idx) (by omega) q hq
    · rw [if_neg h2] at hq
      rw [adjacentPairs_eq_nil (by omega)] at hq
      cases hq

/-- The encode loop preserves the byte expansion of the sequence. -/
theorem encodeLoop_bytesOf {merges : List (Pair × Nat)} {vocab : List (Nat × List Nat)}
    (hom : VocabHom merges vocab) :
    ∀ (fuel : Nat) (ids B : List Nat), bytesOf vocab ids = some B →
      bytesOf vocab (encodeLoop fuel merges ids) = some B := by
  intro fuel
  induction fuel with
  | zero =>
    intro ids B hB
    rw [encodeLoop]
    exact hB
  | succ fuel ih =>
    intro ids B hB
    rw [encodeLoop]
    by_cases h2 : 2 ≤ ids.length
    · rw [if_pos h2]
      rcases hsel : selectMinPair merges (get_stats ids) with _ | pair
      · exact hB
      · show bytesOf vocab
            (match dlookup merges pair with
            | none => ids
            | some idx => encodeLoop fuel merges (merge ids pair idx)) = some B
        rcases hrule : dlookup merges pair with _ | idx
        · exact hB
        · exact ih _ B (bytesOf_merge vocab ids pair idx (hom pair idx hrule) B hB)
    · rw [if_neg h2]
      exact hB

/-! ## The training invariant -/

theorem dlookup_append_right {α β : Type} [DecidableEq α]
    (d d' : List (α × β)) (k : α) (h : dlookup d k = none) :
    dlookup (d ++ d') k = dlookup d' k := by
  induction d with
  | nil => rfl
  | cons e rest ih =>
    obtain ⟨k', v'⟩ := e
    by_cases hk : k' = k
    · simp [dlookup, hk] at h
    · simp only [dlookup, if_neg hk] at h
      rw [List.cons_append, dlookup, if_neg hk]
      exact ih h

theorem range_pairs_keys (n : Nat) :
    ((List.range n).map (fun i => (i, ([i] : List Nat)))).map Prod.fst = List.range n := by
  rw [List.map_map]
  rw [show (Prod.fst ∘ fun i : Nat => (i, ([i] : List Nat))) = fun i => i from rfl]
  exact List.map_id' _

theorem baseVocab_keys : baseVocab.map Prod.fst = List.range TOKENS :=
  range_pairs_keys TOKENS

theorem dlookup_range_pairs (n : Nat) (b : Nat) (h : b < n) :
    dlookup ((List.range n).map (fun i => (i, ([i] : List Nat)))) b = some [b] := by
  induction n with
  | zero => omega
  | succ n ih =>
    rw [List.range_succ, List.map_append]
    by_cases hb : b < n
    · exact dlookup_append_left _ _ _ _ (ih hb)
    · have hb' : b = n := by omega
      subst hb'
      rw [dlookup_append_right]
      · simp [dlookup]
      · rw [dlookup_eq_none_iff, range_pairs_keys]
        simp

theorem byteEntries_baseVocab : ByteEntries baseVocab := by
  intro b hb
  exact dlookup_range_pairs TOKENS b hb

/-- The invariant of the training loop, tying together the current sequence
`ids`, the accumulated locals `merges` and `vocab`, and the loop counter `i`. -/
structure TrainInv (ids : List Nat) (merges : List (Pair × Nat))
    (vocab : List (Nat × List Nat)) (i : Nat) : Prop where
  elemBound : ∀ x ∈ ids, x < 256 + i
  mergesIds : merges.map Prod.snd = List.range' 256 i
  keyBound : ∀ e ∈ merges, e.1.1 < 256 + i ∧ e.1.2 < 256 + i
  keysNodup : (merges.map Prod.fst).Nodup
  freshAdj : ∀ p ∈ adjacentPairs ids, dlookup merges p = none
  vocabKeys : vocab.map Prod.fst = List.range (256 + i)
  byteEnt : ByteEntries vocab
  vocabOK : ∀ e ∈ merges, ∃ va vb, dlookup vocab e.1.1 = some va ∧
    dlookup vocab e.1.2 = some vb ∧ dlookup vocab e.2 = some (va ++ vb)
  buildEq : build_vocab_merges baseVocab merges = some vocab

theorem trainInv_start (text : List Char) :
    TrainInv (utf8EncodeStr text) [] baseVocab 0 where
  elemBound := by
    intro x hx
    have := utf8EncodeStr_lt_256 text x hx
    omega
  mergesIds := rfl
  keyBound := by simp
  keysNodup := by simp
  freshAdj := by intro p _; rfl
  vocabKeys := by
    rw [baseVocab_keys]
    rfl
  byteEnt := byteEntries_baseVocab
  vocabOK := by simp
  buildEq := rfl

theorem build_vocab_merges_append (v : List (Nat × List Nat))
    (l₁ l₂ : List (Pair × Nat)) :
    build_vocab_merges v (l₁ ++ l₂) =
      match build_vocab_merges v l₁ with
      | some v' => build_vocab_merges v' l₂
      | none => none := by
  induction l₁ generalizing v with
  | nil => rfl
  | cons e rest ih =>
    obtain ⟨⟨p0, p1⟩, idx⟩ := e
    rw [List.cons_append, build_vocab_merges, build_vocab_merges]
    rcases dlookup v p0 with _ | a
    · rfl
    · rcases dlookup v p1 with _ | b
      · rfl
      · exact ih _

theorem build_vocab_merges_single (v : List (Nat × List Nat)) (a b idx : Nat)
    (va vb : List Nat) (ha : dlookup v a = some va) (hb : dlookup v b = some vb) :
    build_vocab_merges v [((a, b), idx)] = some (dictInsert v idx (va ++ vb)) := by
  rw [build_vocab_merges.eq_def]
  simp only [ha, hb]
  rfl

/-- One step of the training loop preserves the invariant. -/
theorem trainInv_step {ids : List Nat} {merges : List (Pair × Nat)}
    {vocab : List (Nat × List Nat)} {i : Nat} {pair : Pair} {va vb : List Nat}
    (inv : TrainInv ids merges vocab i)
    (hsel : selectMaxPair (get_stats ids) = some pair)
    (hva : dlookup vocab pair.1 = some va) (hvb : dlookup vocab pair.2 = some vb) :
    TrainInv (merge ids pair (256 + i)) (dictInsert merges pair (256 + i))
      (dictInsert vocab (256 + i) (va ++ vb)) (i + 1) := by
  have hadj : pair ∈ adjacentPairs ids := (get_stats_keys ids pair).mp (selectMaxPair_mem hsel)
  have hfresh : dlookup merges pair = none := inv.freshAdj pair hadj
  have hcomp : pair.1 ∈ ids ∧ pair.2 ∈ ids := by
    obtain ⟨a, b⟩ := pair
    exact mem_of_mem_adjacentPairs hadj
  have hbound1 : pair.1 < 256 + i := inv.elemBound _ hcomp.1
  have hbound2 : pair.2 < 256 + i := inv.elemBound _ hcomp.2
  have hvfresh : dlookup vocab (256 + i) = none := by
    rw [dlookup_eq_none_iff, inv.vocabKeys]
    simp
  have hmergesApp : dictInsert merges pair (256 + i) = merges ++ [(pair, 256 + i)] :=
    dictInsert_eq_append _ _ _ hfresh
  have hvocabApp : dictInsert vocab (256 + i) (va ++ vb) = vocab ++ [(256 + i, va ++ vb)] :=
    dictInsert_eq_append _ _ _ hvfresh
  refine ⟨?_, ?_, ?_, ?_, ?_, ?_, ?_, ?_, ?_⟩
  · -- elemBound
    intro x hx
    rcases mem_merge hx with h | h
    · omega
    · have := inv.elemBound x h
      omega
  · -- mergesIds
    rw [hmergesApp, List.map_append, inv.mergesIds]
    rw [show (List.map Prod.snd [(pair, 256 + i)]) = [256 + i] from rfl]
    rw [List.range'_concat]
    simp
  · -- keyBound
    intro e he
    rw [hmergesApp] at he
    rcases List.mem_append.mp he with h | h
    · have := inv.keyBound e h
      omega
    · simp at h
      rw [h]
      simp
      omega
  · -- keysNodup
    rw [hmergesApp, List.map_append]
    rw [List.nodup_append]
    refine ⟨inv.keysNodup, by simp, ?_⟩
    intro q hq
    simp only [List.map_cons, List.map_nil, List.mem_cons, List.not_mem_nil, or_false]
    intro hqp
    rw [hqp] at hq
    rw [dlookup_eq_none_iff] at hfresh
    exact hfresh hq
  · -- freshAdj
    intro q hq
    obtain ⟨x, y⟩ := q
    rcases adjacentPairs_merge hq with h | h | h
    · rw [dlookup_eq_none_iff, hmergesApp, List.map_append]
      intro hmem
      rcases List.mem_append.mp hmem with hm | hm
      · rcases List.mem_map.mp hm with ⟨e, he, hfst⟩
        have := inv.keyBound e he
        rw [hfst] at this
        simp at this
        omega
      · simp at hm
        rw [← hm] at hbound1
        simp at hbound1
        omega
    · rw [dlookup_eq_none_iff, hmergesApp, List.map_append]
      intro hmem
      rcases List.mem_append.mp hmem with hm | hm
      · rcases List.mem_map.mp hm with ⟨e, he, hfst⟩
        have := inv.keyBound e he
        rw [hfst] at this
        simp at this
        omega
      · simp at hm
        rw [← hm] at hbound2
        simp at hbound2
        omega
    · have hne : (x, y) ≠ pair := by
        obtain ⟨a, b⟩ := pair
        intro hcontra
        rw [Prod.mk.injEq] at hcontra
        exact h.2 ⟨hcontra.1, hcontra.2⟩
      rw [dlookup_dictInsert_ne _ _ _ _ hne]
      exact inv.freshAdj _ h.1
  · -- vocabKeys
    rw [hvocabApp, List.map_append, inv.vocabKeys]
    rw [show (List.map Prod.fst [(256 + i, va ++ vb)]) = [256 + i] from rfl]
    rw [← List.range_succ]
    rfl
  · -- byteEnt
    intro b hb
    rw [dlookup_dictInsert_ne _ _ _ _ (by omega : b ≠ 256 + i)]
    exact inv.byteEnt b hb
  · -- vocabOK
    intro e he
    rw [hmergesApp] at he
    rcases List.mem_append.mp he with h | h
    · rcases inv.vocabOK e h with ⟨wa, wb, h1, h2, h3⟩
      have hb := inv.keyBound e h
      have hi : e.2 < 256 + i := by
        have : e.2 ∈ merges.map Prod.snd := List.mem_map_of_mem _ h
        rw [inv.mergesIds, List.mem_range'] at this
        omega
      refine ⟨wa, wb, ?_, ?_, ?_⟩
      · rw [dlookup_dictInsert_ne _ _ _ _ (by omega : e.1.1 ≠ 256 + i)]
        exact h1
      · rw [dlookup_dictInsert_ne _ _ _ _ (by omega : e.1.2 ≠ 256 + i)]
        exact h2
      · rw [dlookup_dictInsert_ne _ _ _ _ (by omega : e.2 ≠ 256 + i)]
        exact h3
    · simp at h
      rw [h]
      refine ⟨va, vb, ?_, ?_, ?_⟩
      · rw [dlookup_dictInsert_ne _ _ _ _ (by omega : pair.1 ≠ 256 + i)]
        exact hva
      · rw [dlookup_dictInsert_ne _ _ _ _ (by omega : pair.2 ≠ 256 + i)]
        exact hvb
      · simp [dlookup_dictInsert_self]
  · -- buildEq
    rw [hmergesApp, build_vocab_merges_append, inv.buildEq]
    show build_vocab_merges vocab [(pair, 256 + i)] =
      some (dictInsert vocab (256 + i) (va ++ vb))
    obtain ⟨a, b⟩ := pair
    simp only at hva hvb
    exact build_vocab_merges_single vocab a b (256 + i) va vb hva hvb

theorem trainLoop_inv : ∀ (n : Nat) (ids : List Nat) (merges : List (Pair × Nat))
    (vocab : List (Nat × List Nat)) (i : Nat), TrainInv ids merges vocab i →
    ∀ m vb, trainLoop ids merges vocab i n = .ok (m, vb) →
      ∃ ids', TrainInv ids' m vb (i + n) := by
  intro n
  induction n with
  | zero =>
    intro ids merges vocab i inv m vb hok
    have hok' : (Except.ok (merges, vocab) :
        Except TrainError (List (Pair × Nat) × List (Nat × List Nat))) = .ok (m, vb) := hok
    have h := Except.ok.inj hok'
    rw [Prod.mk.injEq] at h
    rw [← h.1, ← h.2, Nat.add_zero]
    exact ⟨ids, inv⟩
  | succ n ih =>
    intro ids merges vocab i inv m vb hok
    rw [trainLoop] at hok
    revert hok
    rcases hsel : selectMaxPair (get_stats ids) with _ | pair
    · intro hok
      exact Except.noConfusion hok
    · simp only []
      rcases hva : dlookup vocab pair.1 with _ | va
      · intro hok
        exact Except.noConfusion hok
      · simp only []
        rcases hvb : dlookup vocab pair.2 with _ | vb'
        · intro hok
          exact Except.noConfusion hok
        · intro hok
          have step := trainInv_step inv hsel hva hvb
          have := ih _ _ _ _ step m vb hok
          rw [show i + 1 + n = i + (n + 1) by omega] at this
          exact this

theorem trainLoop_no_invalid : ∀ (n : Nat) (ids : List Nat) (merges : List (Pair × Nat))
    (vocab : List (Nat × List Nat)) (i : Nat),
    trainLoop ids merges vocab i n ≠ .error .invalidVocabSize := by
  intro n
  induction n with
  | zero =>
    intro ids merges vocab i h
    exact Except.noConfusion h
  | succ n ih =>
    intro ids merges vocab i h
    rw [trainLoop] at h
    revert h
    rcases selectMaxPair (get_stats ids) with _ | pair
    · intro h
      exact TrainError.noConfusion (Except.error.inj h)
    · simp only []
      rcases dlookup vocab pair.1 with _ | va
      · intro h
        exact TrainError.noConfusion (Except.error.inj h)
      · simp only []
        rcases dlookup vocab pair.2 with _ | vb
        · intro h
          exact TrainError.noConfusion (Except.error.inj h)
        · intro h
          exact ih _ _ _ _ h

/-- Unpacking a successful `train` call: the vocabulary-size precondition
held, `pattern`/`special_tokens` are untouched, and the new `merges`/`vocab`
satisfy the training invariant at counter `vocab_size - 256`. -/
theorem train_ok_elim {s : Tokenizer} {text : List Char} {v : Nat} {s' : Tokenizer}
    (h : BasicTokenizer.train s text v = (s', none)) :
    256 ≤ v ∧ s'.pattern = s.pattern ∧ s'.special_tokens = s.special_tokens ∧
      ∃ ids', TrainInv ids' s'.merges s'.vocab (v - 256) := by
  by_cases hv : v < TOKENS
  · rw [BasicTokenizer.train, if_pos hv] at h
    rw [Prod.mk.injEq] at h
    exact absurd h.2 (by simp)
  · rw [BasicTokenizer.train, if_neg hv] at h
    revert h
    rcases hloop : trainLoop (utf8EncodeStr text) [] baseVocab 0 (v - TOKENS) with e | mv
    · intro h
      rw [Prod.mk.injEq] at h
      exact absurd h.2 (by simp)
    · obtain ⟨m, vb⟩ := mv
      intro h
      rw [Prod.mk.injEq] at h
      have hs' : s' = { s with merges := m, vocab := vb } := h.1.symm
      have hiv := trainLoop_inv (v - TOKENS) _ [] baseVocab 0 (trainInv_start text) m vb hloop
      rw [Nat.zero_add] at hiv
      rw [show TOKENS = 256 from rfl] at hiv hv
      refine ⟨by omega, ?_, ?_, ?_⟩
      · rw [hs']
      · rw [hs']
      · rw [hs']
        exact hiv

theorem trainInv_vocabHom {ids : List Nat} {merges : List (Pair × Nat)}
    {vocab : List (Nat × List Nat)} {i : Nat} (inv : TrainInv ids merges vocab i) :
    VocabHom merges vocab := by
  intro p idx h
  exact inv.vocabOK (p, idx) (dlookup_mem _ _ _ h)

/-- The decode-of-encode core: for any state whose vocabulary has the byte
entries and is homomorphic over its merge rules, `decode(encode(text))`
recovers `text`. -/
theorem decode_encode_of_props (s : Tokenizer) (hB : ByteEntries s.vocab)
    (hom : VocabHom s.merges s.vocab) (text : List Char) :
    BasicTokenizer.decode s (BasicTokenizer.encode s text) = .ok (text.map Char.toNat) := by
  have hbytes : bytesOf s.vocab (utf8EncodeStr text) = some (utf8EncodeStr text) :=
    bytesOf_all_bytes hB _ (utf8EncodeStr_lt_256 text)
  have hpres := encodeLoop_bytesOf hom (utf8EncodeStr text).length _ _ hbytes
  rw [BasicTokenizer.decode, BasicTokenizer.encode, hpres]
  simp only []
  rw [utf8Decode_encodeStr]

/-! ## Save/load round trip -/

theorem parseMerges_saved : ∀ (rest acc : List (Pair × Nat)) (idx : Nat),
    ((acc ++ rest).map Prod.fst).Nodup →
    rest.map Prod.snd = List.range' idx rest.length →
    parseMerges idx acc
      (rest.map (fun e => natToChars e.1.1 ++ ' ' :: natToChars e.1.2)) =
      .ok (acc ++ rest) := by
  intro rest
  induction rest with
  | nil =>
    intro acc idx _ _
    simp [parseMerges]
  | cons e rest ih =>
    obtain ⟨⟨a, b⟩, j⟩ := e
    intro acc idx hnodup hseq
    rw [List.map_cons, parseMerges]
    rw [pySplit_two_words _ _ (natToChars_ne_nil a) (natToChars_ne_nil b)
      (natToChars_not_ws a) (natToChars_not_ws b)]
    simp only [parseNatChars_natToChars]
    simp only [List.length_cons] at hseq
    rw [List.map_cons, List.range'_succ] at hseq
    have hj : j = idx := (List.cons.injEq _ _ _ _).mp hseq |>.1
    have hseq' : rest.map Prod.snd = List.range' (idx + 1) rest.length :=
      (List.cons.injEq _ _ _ _).mp hseq |>.2
    have hnotin : (a, b) ∉ acc.map Prod.fst := by
      rw [List.map_append] at hnodup
      rcases List.nodup_append.mp hnodup with ⟨_, _, hdisj⟩
      intro hmem
      exact hdisj hmem (by simp)
    have hins : dictInsert acc (a, b) idx = acc ++ [((a, b), idx)] :=
      dictInsert_eq_append _ _ _ ((dlookup_eq_none_iff _ _).mpr hnotin)
    rw [hins]
    have hnodup' : (((acc ++ [((a, b), idx)]) ++ rest).map Prod.fst).Nodup := by
      have : ((acc ++ [((a, b), idx)]) ++ rest).map Prod.fst =
          (acc ++ ((a, b), j) :: rest).map Prod.fst := by
        simp
      rw [this]
      exact hnodup
    rw [ih (acc ++ [((a, b), idx)]) (idx + 1) hnodup' hseq']
    rw [hj]
    simp

/-- Loading the saved model lines of a state whose pattern and special
tokens are empty and whose merges are sequentially numbered from 256 (in
particular: any state trained from a fresh tokenizer) restores the state
exactly, whatever tokenizer object `load` is called on. -/
theorem save_load_core {s : Tokenizer}
    (hpat : s.pattern = []) (hspec : s.special_tokens = [])
    (hseq : s.merges.map Prod.snd = List.range' 256 s.merges.length)
    (hnodup : (s.merges.map Prod.fst).Nodup)
    (hbuild : build_vocab_merges baseVocab s.merges = some s.vocab)
    (u : Tokenizer) (pre : List Char) :
    Tokenizer.load u (pre ++ ".model".data) s.saveModelLines = (s, none) := by
  obtain ⟨ms, ps, sps, vs⟩ := s
  simp only at hpat hspec hseq hnodup hbuild
  subst hpat
  subst hspec
  have hsuf : (".model".data.isSuffixOf (pre ++ ".model".data)) = true := by
    rw [List.isSuffixOf_iff_suffix]
    exact List.suffix_append pre _
  have hpm := parseMerges_saved ms [] 256 (by simpa using hnodup) (by simpa using hseq)
  rw [List.nil_append] at hpm
  rw [Tokenizer.load, if_neg (by simp [hsuf])]
  rw [Tokenizer.saveModelLines]
  simp only [List.map_nil, List.length_nil, List.nil_append]
  rw [if_neg (by rw [show ((VERSION :: ([] : List Char) :: natToChars 0 ::
        List.map (fun e => natToChars e.1.1 ++ ' ' :: natToChars e.1.2) ms).getD 0 []) =
      VERSION from rfl, show pyStrip VERSION = VERSION from by decide]; simp)]
  rw [show parseNatChars (pyStrip ((VERSION :: ([] : List Char) :: natToChars 0 ::
      List.map (fun e => natToChars e.1.1 ++ ' ' :: natToChars e.1.2) ms).getD 2 [])) =
    some 0 from by rfl]
  simp only []
  rw [show parseSpecials [] (List.map (fun i => (VERSION :: ([] : List Char) :: natToChars 0 ::
      List.map (fun e => natToChars e.1.1 ++ ' ' :: natToChars e.1.2) ms).getD (3 + i) [])
      (List.range 0)) = Except.ok [] from rfl]
  simp only []
  rw [show TOKENS = 256 from rfl]
  rw [show List.drop (3 + 0) (VERSION :: ([] : List Char) :: natToChars 0 ::
      List.map (fun e => natToChars e.1.1 ++ ' ' :: natToChars e.1.2) ms) =
    List.map (fun e => natToChars e.1.1 ++ ' ' :: natToChars e.1.2) ms from rfl]
  rw [hpm]
  simp only []
  have hbv : build_vocab ms [] = some vs := by
    rw [build_vocab.eq_def, hbuild]
    rfl
  rw [hbv]
  simp only []
  rw [show pyStrip ((VERSION :: ([] : List Char) :: natToChars 0 ::
      List.map (fun e => natToChars e.1.1 ++ ' ' :: natToChars e.1.2) ms).getD 1 []) =
    [] from rfl]

/-! ## Properties of loaded states -/

theorem dlookup_append_singleton_ne {α β : Type} [DecidableEq α]
    (d : List (α × β)) (j k : α) (x : β) (h : k ≠ j) :
    dlookup (d ++ [(j, x)]) k = dlookup d k := by
  rcases hd : dlookup d k with _ | v
  · rw [dlookup_append_right _ _ _ hd]
    have h' : ¬ j = k := fun hh => h hh.symm
    simp [dlookup, h']
  · exact dlookup_append_left _ _ _ _ hd

theorem dictInsert_values_mem {α : Type} [DecidableEq α] {d : List (α × Nat)} {k : α}
    {v j : Nat} (h : j ∈ (dictInsert d k v).map Prod.snd) :
    j = v ∨ j ∈ d.map Prod.snd := by
  induction d with
  | nil =>
    rw [show dictInsert ([] : List (α × Nat)) k v = [(k, v)] from rfl] at h
    simp at h
    exact Or.inl h
  | cons e rest ih =>
    obtain ⟨k', v'⟩ := e
    by_cases hk : k' = k
    · rw [dictInsert, if_pos hk] at h
      rw [List.map_cons, List.mem_cons] at h
      rw [List.map_cons, List.mem_cons]
      rcases h with h | h
      · exact Or.inl h
      · exact Or.inr (Or.inr h)
    · rw [dictInsert, if_neg hk] at h
      rw [List.map_cons, List.mem_cons] at h
      rw [List.map_cons, List.mem_cons]
      rcases h with h | h
      · exact Or.inr (Or.inl h)
      · rcases ih h with h' | h'
        · exact Or.inl h'
        · exact Or.inr (Or.inr h')

theorem dictInsert_values_nodup {α : Type} [DecidableEq α] {d : List (α × Nat)} {k : α}
    {idx : Nat} (hnd : (d.map Prod.snd).Nodup) (hlt : ∀ j ∈ d.map Prod.snd, j < idx) :
    ((dictInsert d k idx).map Prod.snd).Nodup := by
  induction d with
  | nil => simp [dictInsert]
  | cons e rest ih =>
    obtain ⟨k', v'⟩ := e
    simp only [List.map_cons, List.nodup_cons] at hnd
    by_cases hk : k' = k
    · rw [dictInsert, if_pos hk]
      simp only [List.map_cons, List.nodup_cons]
      refine ⟨?_, hnd.2⟩
      intro hmem
      have := hlt idx (by simp [hmem])
      omega
    · rw [dictInsert, if_neg hk]
      simp only [List.map_cons, List.nodup_cons]
      refine ⟨?_, ih hnd.2 (fun j hj => hlt j (by simp [hj]))⟩
      intro hmem
      rcases dictInsert_values_mem hmem with h | h
      · have := hlt v' (by simp)
        omega
      · exact hnd.1 h

theorem parseMerges_values : ∀ (lines : List (List Char)) (acc : List (Pair × Nat))
    (idx : Nat) (m : List (Pair × Nat)),
    (acc.map Prod.snd).Nodup → (∀ j ∈ acc.map Prod.snd, 256 ≤ j ∧ j < idx) → 256 ≤ idx →
    parseMerges idx acc lines = .ok m →
    (m.map Prod.snd).Nodup ∧ ∀ j ∈ m.map Prod.snd, 256 ≤ j := by
  intro lines
  induction lines with
  | nil =>
    intro acc idx m hnd hb hidx hok
    have hm := Except.ok.inj (hok : (Except.ok acc : Except LoadError _) = .ok m)
    rw [← hm]
    exact ⟨hnd, fun j hj => (hb j hj).1⟩
  | cons line rest ih =>
    intro acc idx m hnd hb hidx hok
    rw [parseMerges] at hok
    revert hok
    rcases pySplit line with _ | ⟨s1, _ | ⟨s2, _ | ⟨s3, t3⟩⟩⟩
    · intro hok
      exact Except.noConfusion hok
    · intro hok
      exact Except.noConfusion hok
    · simp only []
      rcases parseNatChars s1 with _ | a
      · intro hok
        exact Except.noConfusion hok
      · simp only []
        rcases parseNatChars s2 with _ | b
        · intro hok
          exact Except.noConfusion hok
        · intro hok
          refine ih (dictInsert acc (a, b) idx) (idx + 1) m
            (dictInsert_values_nodup hnd (fun j hj => (hb j hj).2)) ?_ (by omega) hok
          intro j hj
          rcases dictInsert_values_mem hj with h | h
          · omega
          · have := hb j h
            omega
    · intro hok
      exact Except.noConfusion hok

theorem build_vocab_merges_props : ∀ (rest : List (Pair × Nat)) (v : List (Nat × List Nat))
    (done : List Nat),
    v.map Prod.fst = List.range 256 ++ done →
    (done ++ rest.map Prod.snd).Nodup →
    (∀ j ∈ rest.map Prod.snd, 256 ≤ j) →
    ∀ vb, build_vocab_merges v rest = some vb →
      vb.map Prod.fst = (List.range 256 ++ done) ++ rest.map Prod.snd ∧
      (∀ k, k ∉ rest.map Prod.snd → dlookup vb k = dlookup v k) ∧
      (∀ e ∈ rest, ∃ va wb, dlookup vb e.1.1 = some va ∧ dlookup vb e.1.2 = some wb ∧
        dlookup vb e.2 = some (va ++ wb)) := by
  intro rest
  induction rest with
  | nil =>
    intro v done hkeys hnd hge vb hok
    have hv := Option.some_inj.mp (hok : some v = some vb)
    rw [← hv]
    refine ⟨by simp [hkeys], fun k _ => rfl, by simp⟩
  | cons e rest ih =>
    obtain ⟨⟨p0, p1⟩, j⟩ := e
    intro v done hkeys hnd hge vb hok
    rw [build_vocab_merges] at hok
    revert hok
    rcases hl0 : dlookup v p0 with _ | va
    · intro hok
      exact Option.noConfusion hok
    · rcases hl1 : dlookup v p1 with _ | wb
      · intro hok
        exact Option.noConfusion hok
      · intro hok
        simp only [List.map_cons] at hnd hge
        have hjge : 256 ≤ j := hge j (by simp)
        have hjdone : j ∉ done := by
          rcases List.nodup_append.mp hnd with ⟨_, _, hdisj⟩
          intro hmem
          exact hdisj hmem (by simp)
        have hjkeys : dlookup v j = none := by
          rw [dlookup_eq_none_iff, hkeys]
          intro hmem
          rcases List.mem_append.mp hmem with h | h
          · rw [List.mem_range] at h
            omega
          · exact hjdone h
        have hins : dictInsert v j (va ++ wb) = v ++ [(j, va ++ wb)] :=
          dictInsert_eq_append _ _ _ hjkeys
        have hkeys' : (dictInsert v j (va ++ wb)).map Prod.fst =
            List.range 256 ++ (done ++ [j]) := by
          rw [hins, List.map_append, hkeys]
          simp
        have hnd' : ((done ++ [j]) ++ rest.map Prod.snd).Nodup := by
          have heq : (done ++ [j]) ++ rest.map Prod.snd = done ++ j :: rest.map Prod.snd := by
            simp
          rw [heq]
          exact hnd
        have hrge : ∀ x ∈ rest.map Prod.snd, 256 ≤ x := fun x hx => hge x (by simp [hx])
        rcases ih (dictInsert v j (va ++ wb)) (done ++ [j]) hkeys' hnd' hrge vb hok with
          ⟨ihkeys, ihpres, ihentries⟩
        have hjrest : j ∉ rest.map Prod.snd := by
          rcases List.nodup_append.mp hnd with ⟨_, hnd2, _⟩
          rw [List.nodup_cons] at hnd2
          exact hnd2.1
        refine ⟨?_, ?_, ?_⟩
        · rw [ihkeys]
          simp
        · intro k hk
          simp only [List.map_cons, List.mem_cons, not_or] at hk
          rw [ihpres k hk.2, hins, dlookup_append_singleton_ne _ _ _ _ hk.1]
        · intro e he
          rcases List.mem_cons.mp he with he | he
          · -- the head rule: its entries survive the remaining inserts
            have hp0mem : p0 ∈ List.range 256 ++ done := by
              rw [← hkeys]
              exact List.mem_map_of_mem Prod.fst (dlookup_mem _ _ _ hl0)
            have hp1mem : p1 ∈ List.range 256 ++ done := by
              rw [← hkeys]
              exact List.mem_map_of_mem Prod.fst (dlookup_mem _ _ _ hl1)
            have hnotrest : ∀ x, x ∈ List.range 256 ++ done → x ∉ rest.map Prod.snd := by
              intro x hx hxr
              rcases List.mem_append.mp hx with h | h
              · rw [List.mem_range] at h
                have := hrge x hxr
                omega
              · rcases List.nodup_append.mp hnd with ⟨_, _, hdisj⟩
                exact hdisj h (by simp [hxr])
            rw [he]
            refine ⟨va, wb, ?_, ?_, ?_⟩
            · rw [ihpres p0 (hnotrest p0 hp0mem), hins,
                dlookup_append_singleton_ne _ _ _ _ ?hne0]
              · exact hl0
              case hne0 =>
                intro hcon
                rw [hcon] at hp0mem
                rcases List.mem_append.mp hp0mem with h | h
                · rw [List.mem_range] at h
                  omega
                · exact hjdone h
            · rw [ihpres p1 (hnotrest p1 hp1mem), hins,
                dlookup_append_singleton_ne _ _ _ _ ?hne1]
              · exact hl1
              case hne1 =>
                intro hcon
                rw [hcon] at hp1mem
                rcases List.mem_append.mp hp1mem with h | h
                · rw [List.mem_range] at h
                  omega
                · exact hjdone h
            · rw [ihpres j hjrest, hins]
              rw [dlookup_append_right _ _ _ hjkeys]
              simp [dlookup]
          · exact ihentries e he

theorem foldl_specials_lookup (specials : List (List Char × Nat)) :
    ∀ (v : List (Nat × List Nat)) (k : Nat), (∀ e ∈ specials, e.2 ≠ k) →
      dlookup (specials.foldl (fun v e => dictInsert v e.2 (utf8EncodeStr e.1)) v) k =
        dlookup v k := by
  induction specials with
  | nil => intro v k _; rfl
  | cons e rest ih =>
    intro v k hk
    rw [List.foldl_cons, ih _ k (fun x hx => hk x (List.mem_cons_of_mem _ hx))]
    exact dlookup_dictInsert_ne _ _ _ _
      (fun hc => hk e (List.mem_cons_self _ _) (hc ▸ rfl))

/-- Unpacking a successful `load`: the loaded merge ids are distinct and at
least 256, and the loaded vocabulary is `_build_vocab` of the loaded merges
and special tokens. -/
theorem load_ok_elim {u : Tokenizer} {name : List Char} {lines : List (List Char)}
    {s : Tokenizer} (h : Tokenizer.load u name lines = (s, none)) :
    (s.merges.map Prod.snd).Nodup ∧ (∀ j ∈ s.merges.map Prod.snd, 256 ≤ j) ∧
      build_vocab s.merges s.special_tokens = some s.vocab := by
  rw [Tokenizer.load] at h
  by_cases hsuf : ¬ (".model".data.isSuffixOf name)
  · rw [if_pos hsuf] at h
    rw [Prod.mk.injEq] at h
    exact absurd h.2 (by simp)
  · rw [if_neg hsuf] at h
    by_cases hver : pyStrip (lines.getD 0 []) ≠ VERSION
    · rw [if_pos hver] at h
      rw [Prod.mk.injEq] at h
      exact absurd h.2 (by simp)
    · rw [if_neg hver] at h
      revert h
      rcases parseNatChars (pyStrip (lines.getD 2 [])) with _ | n
      · intro h
        rw [Prod.mk.injEq] at h
        exact absurd h.2 (by simp)
      · simp only []
        rcases parseSpecials [] ((List.range n).map (fun i => lines.getD (3 + i) []))
          with e | specials
        · intro h
          rw [Prod.mk.injEq] at h
          exact absurd h.2 (by simp)
        · simp only []
          rcases hpm : parseMerges TOKENS [] (lines.drop (3 + n)) with e | merges
          · intro h
            rw [Prod.mk.injEq] at h
            exact absurd h.2 (by simp)
          · simp only []
            rcases hbv : build_vocab merges specials with _ | vocab
            · intro h
              rw [Prod.mk.injEq] at h
              exact absurd h.2 (by simp)
            · intro h
              rw [Prod.mk.injEq] at h
              have hvals := parseMerges_values _ [] TOKENS merges (by simp) (by simp)
                (by norm_num [TOKENS]) hpm
              rw [← h.1]
              exact ⟨hvals.1, hvals.2, hbv⟩

/-- A successfully loaded state whose special-token ids avoid the byte range
and the merge ids has the byte entries and the merge homomorphism property. -/
theorem load_props_of_disjoint {u : Tokenizer} {name : List Char}
    {lines : List (List Char)} {s : Tokenizer}
    (h : Tokenizer.load u name lines = (s, none))
    (hdisj : ∀ e ∈ s.special_tokens, 256 ≤ e.2 ∧ ∀ j ∈ s.merges.map Prod.snd, e.2 ≠ j) :
    ByteEntries s.vocab ∧ VocabHom s.merges s.vocab := by
  rcases load_ok_elim h with ⟨hnd, hge, hbv⟩
  rw [build_vocab.eq_def] at hbv
  revert hbv
  rcases hbm : build_vocab_merges baseVocab s.merges with _ | v1
  · intro hbv
    exact Option.noConfusion hbv
  · intro hbv
    have hvocab : s.vocab =
        s.special_tokens.foldl (fun v e => dictInsert v e.2 (utf8EncodeStr e.1)) v1 :=
      (Option.some_inj.mp hbv).symm
    have hkeys0 : baseVocab.map Prod.fst = List.range 256 ++ [] := by
      rw [baseVocab_keys, List.append_nil]
      rfl
    have hnd0 : (([] : List Nat) ++ s.merges.map Prod.snd).Nodup := by
      rw [List.nil_append]
      exact hnd
    rcases build_vocab_merges_props s.merges baseVocab [] hkeys0 hnd0 hge v1 hbm with
      ⟨hkeys1, hpres1, hentries1⟩
    constructor
    · -- ByteEntries
      intro b hb
      rw [hvocab, foldl_specials_lookup _ _ b
        (fun e he => by have := (hdisj e he).1; omega)]
      rw [hpres1 b (fun hmem => by have := hge b hmem; omega)]
      exact byteEntries_baseVocab b hb
    · -- VocabHom
      intro p idx hlook
      have hmem : (p, idx) ∈ s.merges := dlookup_mem _ _ _ hlook
      rcases hentries1 (p, idx) hmem with ⟨va, wb, h1, h2, h3⟩
      have hidxval : idx ∈ s.merges.map Prod.snd := by
        have := List.mem_map_of_mem Prod.snd hmem
        simpa using this
      have hkeymem : ∀ x : Nat, dlookup v1 x ≠ none → x < 256 ∨ x ∈ s.merges.map Prod.snd := by
        intro x hx
        rcases hv : dlookup v1 x with _ | w
        · exact absurd hv hx
        · have : x ∈ v1.map Prod.fst := List.mem_map_of_mem Prod.fst (dlookup_mem _ _ _ hv)
          rw [hkeys1, List.append_nil] at this
          rcases List.mem_append.mp this with hm | hm
          · exact Or.inl (List.mem_range.mp hm)
          · exact Or.inr hm
      have htransfer : ∀ x : Nat, (x < 256 ∨ x ∈ s.merges.map Prod.snd) →
          dlookup s.vocab x = dlookup v1 x := by
        intro x hx
        rw [hvocab]
        refine foldl_specials_lookup _ _ x (fun e he => ?_)
        rcases hdisj e he with ⟨hge', hne⟩
        rcases hx with hx | hx
        · omega
        · exact hne x hx
      refine ⟨va, wb, ?_, ?_, ?_⟩
      · rw [htransfer p.1 (hkeymem p.1 (by rw [h1]; simp))]
        exact h1
      · rw [htransfer p.2 (hkeymem p.2 (by rw [h2]; simp))]
        exact h2
      · rw [htransfer idx (Or.inr hidxval)]
        exact h3

/-! ## Helper facts for the claim theorems -/

theorem bytesOf_eq_none_iff (vocab : List (Nat × List Nat)) (ids : List Nat) :
    bytesOf vocab ids = none ↔ ∃ i ∈ ids, dlookup vocab i = none := by
  induction ids with
  | nil => simp [bytesOf]
  | cons i rest ih =>
    rw [bytesOf]
    rcases hl : dlookup vocab i with _ | b
    · simp only []
      constructor
      · intro _
        exact ⟨i, by simp, hl⟩
      · intro _
        trivial
    · rcases hr : bytesOf vocab rest with _ | bs
      · simp only []
        constructor
        · intro _
          rcases ih.mp hr with ⟨x, hx, hlx⟩
          exact ⟨x, by simp [hx], hlx⟩
        · intro _
          trivial
      · simp only []
        constructor
        · intro hcon
          exact Option.noConfusion hcon
        · intro hex
          rcases hex with ⟨x, hx, hlx⟩
          rcases List.mem_cons.mp hx with hx | hx
          · rw [hx] at hlx
            rw [hlx] at hl
            exact Option.noConfusion hl
          · have : bytesOf vocab rest = none := ih.mpr ⟨x, hx, hlx⟩
            rw [this] at hr
            exact Option.noConfusion hr

/-! ## Inputs shared by the counterexamples

A well-formed model file declaring one special token `"X"` with id 5: a
legal input to `load` that puts a special token inside the byte-id range. -/

def specialModelLines : List (List Char) := [VERSION, [], ['1'], 'X' :: ' ' :: ['5']]

/-- The state obtained by loading `specialModelLines` (the load succeeds). -/
def loadedWithSpecial : Tokenizer :=
  (Tokenizer.load Tokenizer.init "m.model".data specialModelLines).1

/-- The state obtained by then training that tokenizer (the train succeeds,
leaving the loaded special token in place). -/
def trainedWithSpecial : Tokenizer :=
  (BasicTokenizer.train loadedWithSpecial "aa".data 257).1

/-! ## The claims -/

/-- C1 (counterexample): a tokenizer state produced by a successful `load`
of a well-formed model file (one whose special token sits at byte id 5)
does not satisfy `decode(encode(text)) == text`: the one-character text
U+0005 encodes to `[5]` and decodes to `"X"` (code point 88). -/
theorem C1_counterexample :
    (Tokenizer.load Tokenizer.init "m.model".data specialModelLines).2 = none ∧
    BasicTokenizer.decode loadedWithSpecial
      (BasicTokenizer.encode loadedWithSpecial [Char.ofNat 5]) = .ok [88] ∧
    ([88] : List Nat) ≠ [Char.ofNat 5].map Char.toNat := by decide

/-- C1 (amended): for every Unicode text and every tokenizer state produced
by successful training — or by successful loading, provided every special
token id is at least 256 and distinct from every merge id —
`decode(encode(text))` returns exactly the code points of `text`. -/
theorem C1_roundtrip (s : Tokenizer)
    (h : (∃ s₀ text v, BasicTokenizer.train s₀ text v = (s, none)) ∨
      ((∃ u name lines, Tokenizer.load u name lines = (s, none)) ∧
        ∀ e ∈ s.special_tokens, 256 ≤ e.2 ∧ ∀ j ∈ s.merges.map Prod.snd, e.2 ≠ j)) :
    ∀ text : List Char,
      BasicTokenizer.decode s (BasicTokenizer.encode s text) = .ok (text.map Char.toNat) := by
  intro text
  rcases h with ⟨s₀, t₀, v₀, htrain⟩ | ⟨⟨u, name, lines, hload⟩, hdisj⟩
  · rcases train_ok_elim htrain with ⟨_, _, _, ids', inv⟩
    exact decode_encode_of_props s (fun b hb => inv.byteEnt b hb) (trainInv_vocabHom inv) text
  · rcases load_props_of_disjoint hload hdisj with ⟨hB, hom⟩
    exact decode_encode_of_props s hB hom text

/-- C1 witness: the round trip on a concretely trained state. -/
theorem C1_witness :
    BasicTokenizer.train Tokenizer.init "aa".data 257 =
      ((BasicTokenizer.train Tokenizer.init "aa".data 257).1, none) ∧
    BasicTokenizer.decode (BasicTokenizer.train Tokenizer.init "aa".data 257).1
      (BasicTokenizer.encode (BasicTokenizer.train Tokenizer.init "aa".data 257).1
        "ab".data) = .ok ("ab".data.map Char.toNat) :=
  ⟨by decide, C1_roundtrip _ (Or.inl ⟨Tokenizer.init, "aa".data, 257, by decide⟩) "ab".data⟩

/-- C2 (counterexample): on empty text with target size 257 the training
loop hits an empty stats dictionary and fails (`max()` raises `ValueError`);
it does not stop early and succeed as the claim states. -/
theorem C2_counterexample :
    (BasicTokenizer.train Tokenizer.init [] 257).2 = some TrainError.emptyStats := by decide

/-- C2 (amended): a successful `train` call implies the vocabulary-size
precondition held, performs exactly `vocab_size - 256` merges (when the
sequence runs out of pairs mid-loop, train fails rather than stopping
early), and the resulting vocabulary has `256 + (vocab_size - 256)`
entries. -/
theorem C2_train_counts (s : Tokenizer) (text : List Char) (v : Nat) (s' : Tokenizer)
    (h : BasicTokenizer.train s text v = (s', none)) :
    256 ≤ v ∧ s'.merges.length = v - 256 ∧ s'.vocab.length = 256 + (v - 256) := by
  rcases train_ok_elim h with ⟨hv, _, _, ids', inv⟩
  refine ⟨hv, ?_, ?_⟩
  · have h1 := congrArg List.length inv.mergesIds
    rw [List.length_map, List.length_range'] at h1
    exact h1
  · have h2 := congrArg List.length inv.vocabKeys
    rw [List.length_map, List.length_range] at h2
    exact h2

/-- C2 witness: a concrete successful training run with one merge. -/
theorem C2_witness :
    BasicTokenizer.train Tokenizer.init "aa".data 257 =
      ((BasicTokenizer.train Tokenizer.init "aa".data 257).1, none) ∧
    (256 ≤ 257 ∧
      (BasicTokenizer.train Tokenizer.init "aa".data 257).1.merges.length = 257 - 256 ∧
      (BasicTokenizer.train Tokenizer.init "aa".data 257).1.vocab.length =
        256 + (257 - 256)) :=
  ⟨by decide, C2_train_counts Tokenizer.init "aa".data 257 _ (by decide)⟩

/-- C3: `merge` removes exactly the non-overlapping left-to-right
occurrences of the pair, so the result length is the input length minus
that count; in `[1, 1, 1]` the pair `(1, 1)` is consumed once, giving
`[new_id, 1]`. -/
theorem C3_merge_length :
    (∀ (ids : List Nat) (p : Pair) (idx : Nat),
      (merge ids p idx).length = ids.length - countPairs ids p) ∧
    merge [1, 1, 1] (1, 1) 300 = [300, 1] ∧ countPairs [1, 1, 1] (1, 1) = 1 := by
  refine ⟨?_, by decide, by decide⟩
  intro ids p idx
  have := merge_length_add ids p idx
  omega

/-- C4: the id sequence returned by `encode` is a fixed point of the learned
rules — no adjacent pair of the output has a merge rule. -/
theorem C4_encode_fixed_point (s : Tokenizer) (text : List Char) :
    ∀ q ∈ adjacentPairs (BasicTokenizer.encode s text), dlookup s.merges q = none := by
  intro q hq
  exact encodeLoop_fixed s.merges _ _ le_rfl q hq

/-- C4 witness: a concrete encode whose output still has an adjacent pair,
and that pair has no rule. -/
theorem C4_witness :
    (97, 98) ∈ adjacentPairs (BasicTokenizer.encode
      { Tokenizer.init with merges := [((97, 97), 256)] } "ab".data) ∧
    dlookup ({ Tokenizer.init with merges := [((97, 97), 256)] } : Tokenizer).merges
      (97, 98) = none :=
  ⟨by decide, C4_encode_fixed_point { Tokenizer.init with merges := [((97, 97), 256)] }
    "ab".data (97, 98) (by decide)⟩

/-- C5 (counterexample): a tokenizer state produced by a successful `train`
call (on a tokenizer that had previously loaded a special token) does NOT
round-trip through save/load: the reloaded vocabulary differs, because
`load` rebuilds the vocabulary with the special token while `train` had
built it without. -/
theorem C5_counterexample :
    (Tokenizer.load Tokenizer.init "m.model".data specialModelLines).2 = none ∧
    (BasicTokenizer.train loadedWithSpecial "aa".data 257).2 = none ∧
    (Tokenizer.load trainedWithSpecial ("m".data ++ ".model".data)
      trainedWithSpecial.saveModelLines).2 = none ∧
    (Tokenizer.load trainedWithSpecial ("m".data ++ ".model".data)
      trainedWithSpecial.saveModelLines).1 ≠ trainedWithSpecial := by decide

/-- C5 (amended): for every state produced by training a freshly
constructed tokenizer (whose pattern and special tokens are empty), loading
the saved model file — on any tokenizer object, under any path ending in
".model" — restores exactly the same merges (ids reassigned sequentially
from 256 in file order), special tokens, pattern, and vocabulary. -/
theorem C5_save_load_roundtrip (text : List Char) (v : Nat) (s : Tokenizer)
    (h : BasicTokenizer.train Tokenizer.init text v = (s, none)) :
    ∀ (u : Tokenizer) (pre : List Char),
      Tokenizer.load u (pre ++ ".model".data) s.saveModelLines = (s, none) := by
  intro u pre
  rcases train_ok_elim h with ⟨_, hpat, hspec, ids', inv⟩
  have hlen : v - 256 = s.merges.length := by
    have h1 := congrArg List.length inv.mergesIds
    rw [List.length_map, List.length_range'] at h1
    omega
  refine save_load_core ?_ ?_ ?_ inv.keysNodup inv.buildEq u pre
  · rw [hpat]
    rfl
  · rw [hspec]
    rfl
  · rw [← hlen]
    exact inv.mergesIds

/-- C5 witness: the round trip on a concretely trained state. -/
theorem C5_witness :
    BasicTokenizer.train Tokenizer.init "aa".data 257 =
      ((BasicTokenizer.train Tokenizer.init "aa".data 257).1, none) ∧
    Tokenizer.load Tokenizer.init ("m".data ++ ".model".data)
      (BasicTokenizer.train Tokenizer.init "aa".data 257).1.saveModelLines =
      ((BasicTokenizer.train Tokenizer.init "aa".data 257).1, none) :=
  ⟨by decide, C5_save_load_roundtrip "aa".data 257 _ (by decide) Tokenizer.init "m".data⟩

/-- C6: `decode` fails (with the InvalidArgument condition, Python's
`KeyError`) exactly when some id has no vocabulary entry; otherwise it
returns a string — the UTF-8 decode with `errors="replace"` renders
ill-formed byte subsequences as the replacement character (see
`utf8Decode`) and never fails. -/
theorem C6_decode_error_iff (s : Tokenizer) (ids : List Nat) :
    (BasicTokenizer.decode s ids = .error .unknownId ↔
      ∃ i ∈ ids, dlookup s.vocab i = none) ∧
    (BasicTokenizer.decode s ids = .error .unknownId ∨
      BasicTokenizer.decode s ids = .ok (utf8Decode ((bytesOf s.vocab ids).getD []))) := by
  constructor
  · rw [BasicTokenizer.decode]
    rcases h : bytesOf s.vocab ids with _ | bs
    · simp only []
      constructor
      · intro _
        exact (bytesOf_eq_none_iff _ _).mp h
      · intro _
        trivial
    · simp only []
      constructor
      · intro hcon
        exact Except.noConfusion hcon
      · intro hex
        have : bytesOf s.vocab ids = none := (bytesOf_eq_none_iff _ _).mpr hex
        rw [this] at h
        exact Option.noConfusion h
  · rw [BasicTokenizer.decode]
    rcases h : bytesOf s.vocab ids with _ | bs
    · exact Or.inl rfl
    · exact Or.inr rfl

/-- C7: `train` is atomic — if it fails at any point, the tokenizer state
(merges, vocabulary, pattern, special tokens) is returned unchanged; the
state is replaced only after the whole loop has completed. -/
theorem C7_train_atomic (s : Tokenizer) (text : List Char) (v : Nat)
    (h : (BasicTokenizer.train s text v).2 ≠ none) :
    (BasicTokenizer.train s text v).1 = s := by
  rw [BasicTokenizer.train] at h ⊢
  by_cases hv : v < TOKENS
  · rw [if_pos hv]
  · rw [if_neg hv] at h ⊢
    revert h
    rcases trainLoop (utf8EncodeStr text) [] baseVocab 0 (v - TOKENS) with e | mv
    · intro _
      rfl
    · obtain ⟨m, vb⟩ := mv
      intro h
      exact absurd rfl h

/-- C7 witness: a concrete failing train call (empty text) leaves the fresh
state untouched. -/
theorem C7_witness :
    (BasicTokenizer.train Tokenizer.init [] 257).2 ≠ none ∧
    (BasicTokenizer.train Tokenizer.init [] 257).1 = Tokenizer.init :=
  ⟨by decide, C7_train_atomic Tokenizer.init [] 257 (by decide)⟩

/-- C8: `train` fails with the InvalidArgument condition (the failed
`assert vocab_size >= 256`) exactly when the requested size is below 256;
for sizes of at least 256 no such failure occurs (other failures, such as
running out of pairs, carry different error values). -/
theorem C8_invalid_vocab_size_iff (s : Tokenizer) (text : List Char) (v : Nat) :
    (BasicTokenizer.train s text v).2 = some TrainError.invalidVocabSize ↔ v < 256 := by
  rw [BasicTokenizer.train]
  by_cases hv : v < TOKENS
  · rw [if_pos hv]
    simp only []
    constructor
    · intro _
      exact hv
    · intro _
      trivial
  · rw [if_neg hv]
    rcases htl : trainLoop (utf8EncodeStr text) [] baseVocab 0 (v - TOKENS) with e | mv
    · simp only []
      constructor
      · intro hcon
        have he : e = TrainError.invalidVocabSize := Option.some_inj.mp hcon
        rw [he] at htl
        exact absurd htl (trainLoop_no_invalid _ _ _ _ _)
      · intro hcon
        exact absurd hcon hv
    · obtain ⟨m, vb⟩ := mv
      simp only []
      constructor
      · intro hcon
        exact Option.noConfusion hcon
      · intro hcon
        exact absurd hcon hv

/-- C9 (counterexample): a successful `train` call on a tokenizer that had
loaded a special token leaves that special token in place — the resulting
state's special-token mapping is not empty. -/
theorem C9_counterexample :
    (BasicTokenizer.train loadedWithSpecial "aa".data 257).2 = none ∧
    (BasicTokenizer.train loadedWithSpecial "aa".data 257).1.special_tokens ≠ [] := by
  decide

/-- C9 (amended): `train` neither uses nor sets `pattern` or
`special_tokens` — it leaves both exactly as they were (replacing only
merges and vocabulary); in particular, training a freshly constructed
tokenizer leaves them empty. -/
theorem C9_train_frame (s : Tokenizer) (text : List Char) (v : Nat) :
    (BasicTokenizer.train s text v).1.pattern = s.pattern ∧
    (BasicTokenizer.train s text v).1.special_tokens = s.special_tokens ∧
    (BasicTokenizer.train Tokenizer.init text v).1.pattern = [] ∧
    (BasicTokenizer.train Tokenizer.init text v).1.special_tokens = [] := by
  have key : ∀ s' : Tokenizer, (BasicTokenizer.train s' text v).1.pattern = s'.pattern ∧
      (BasicTokenizer.train s' text v).1.special_tokens = s'.special_tokens := by
    intro s'
    rw [BasicTokenizer.train]
    by_cases hv : v < TOKENS
    · rw [if_pos hv]
      exact ⟨rfl, rfl⟩
    · rw [if_neg hv]
      rcases trainLoop (utf8EncodeStr text) [] baseVocab 0 (v - TOKENS) with e | mv
      · exact ⟨rfl, rfl⟩
      · obtain ⟨m, vb⟩ := mv
        exact ⟨rfl, rfl⟩
  exact ⟨(key s).1, (key s).2, (key Tokenizer.init).1, (key Tokenizer.init).2⟩

/-- C10: `load` asserts that the file name ends in ".model" before reading
anything: for any name without that suffix it fails with the assertion
error, whatever the file's contents — even a perfectly well-formed model. -/
theorem C10_load_suffix_check (u : Tokenizer) (name : List Char)
    (lines : List (List Char)) (h : ¬ (".model".data.isSuffixOf name)) :
    Tokenizer.load u name lines = (u, some LoadError.badSuffix) := by
  rw [Tokenizer.load, if_pos h]

/-- C10 witness: a wrong-suffix name with well-formed model contents. -/
theorem C10_witness :
    (¬ (".model".data.isSuffixOf "m.txt".data)) ∧
    Tokenizer.load Tokenizer.init "m.txt".data [VERSION, [], ['0'], "97 97".data] =
      (Tokenizer.init, some LoadError.badSuffix) :=
  ⟨by decide, C10_load_suffix_check Tokenizer.init "m.txt".data
    [VERSION, [], ['0'], "97 97".data] (by decide)⟩
